import Mathlib

/-!
Verification of the core logic of the VanillaStudio IDE (`main.py`):
the regex-fallback syntax highlighter, the offset-to-index conversion,
the editing aids (auto-indent on Return, line-comment toggle), the
save-path extension enforcement, and the per-language run dispatcher.
Each Python routine is shallowly embedded as an executable Lean
function over lists of characters / strings; machine integers do not
occur in the modelled slice.  The theorems at the end of the file
settle the specification claims against these embeddings.
-/

namespace VanillaStudio

/-- Word characters of the regex class `\w` for the ASCII texts at hand:
letters, digits, underscore. -/
def isWordChar (c : Char) : Bool := c.isAlphanum || c == '_'

/-- The single-quote character, `'`. -/
def squote : Char := Char.ofNat 39

/-- The backtick character. -/
def btick : Char := Char.ofNat 96

/-- First index of an element satisfying `p` (used to model Python's
`str.find`-flavoured scanning on reversed lists). -/
def idxOfP (p : Char → Bool) : List Char → Option Nat
  | [] => none
  | c :: rest => if p c then some 0 else (idxOfP p rest).map (· + 1)

/-- Zero-based index of the last occurrence of `c` in `cs`, if any. -/
def lastIdxOf (cs : List Char) (c : Char) : Option Nat :=
  match idxOfP (fun x => x == c) cs.reverse with
  | some j => some (cs.length - 1 - j)
  | none => none

/-- Fuelled search: first index `j ≥ i` such that `pat` occurs in `cs`
starting at `j` (models the lazy closer search of non-greedy regex
forms such as the end of a block comment or string). -/
def findFromAux (cs pat : List Char) : Nat → Nat → Option Nat
  | 0, _ => none
  | fuel + 1, i =>
    if i ≤ cs.length then
      if pat.isPrefixOf (cs.drop i) then some i
      else findFromAux cs pat fuel (i + 1)
    else none

/-- First index `j ≥ i` at which `pat` occurs in `cs`. -/
def findFrom (cs pat : List Char) (i : Nat) : Option Nat :=
  findFromAux cs pat (cs.length + 1 - i) i

-- ---------------------------------------------------------------------------
-- Language → extension table (`LANG_EXT` in `main.py`) and the
-- `pathlib.Path` suffix operations used by `EditorTab.save` / `save_file_as`.
-- ---------------------------------------------------------------------------

/-- The `LANG_EXT` dictionary of `main.py`, in source order. -/
def LANG_EXT : List (String × String) :=
  [("python", ".py"), ("c", ".c"), ("cpp", ".cpp"), ("html", ".html"),
   ("css", ".css"), ("javascript", ".js"), ("js", ".js"),
   ("typescript", ".ts"), ("ts", ".ts"), ("rust", ".rs"),
   ("java", ".java"), ("lua", ".lua"), ("go", ".go"), ("csharp", ".cs"),
   ("cs", ".cs"), ("ruby", ".rb"), ("rb", ".rb"), ("kotlin", ".kt"),
   ("kt", ".kt"), ("nix", ".nix")]

/-- `LANG_EXT.get(language)` of `main.py`. -/
def langExt (language : String) : Option String :=
  (LANG_EXT.find? (fun p => p.1 == language)).map (·.2)

/-- `pathlib.Path.suffix` on the final path component: the part of the
name from its last dot `i`, provided `0 < i < len(name) - 1`. -/
def pySuffixL (name : List Char) : List Char :=
  match lastIdxOf name '.' with
  | some i => if 0 < i && i + 1 < name.length then name.drop i else []
  | none => []

/-- `pathlib.Path.suffix` at string level. -/
def pySuffix (name : String) : String := String.mk (pySuffixL name.toList)

/-- `pathlib.Path.with_suffix` on the final path component: append the
new suffix if there is no old one, else replace the old one. -/
def pyWithSuffixL (name suf : List Char) : List Char :=
  let old := pySuffixL name
  if old.isEmpty then name ++ suf
  else name.take (name.length - old.length) ++ suf

/-- `pathlib.Path.with_suffix` at string level. -/
def pyWithSuffix (name suf : String) : String :=
  String.mk (pyWithSuffixL name.toList suf.toList)

/-- `pathlib.Path.stem` on the final path component. -/
def pyStemL (name : List Char) : List Char :=
  name.take (name.length - (pySuffixL name).length)

/-- `str.lower()`, modelled per character (the suffixes at hand are
ASCII). -/
def strLower (s : String) : String := String.mk (s.toList.map Char.toLower)

/-- The extension-enforcement performed by `EditorTab.save` on the final
component of the target path: if the tab's language has an entry in
`LANG_EXT`, a missing suffix is appended and a suffix differing from the
expected one after lowercasing both is replaced; otherwise the path is
used unchanged. -/
def savePath (language name : String) : String :=
  match langExt language with
  | none => name
  | some ext =>
    if pySuffix name == "" then pyWithSuffix name ext
    else if strLower (pySuffix name) != strLower ext then pyWithSuffix name ext
    else name

/-- `EditorTab.__init__` stores `language.lower()` as the tab's language
identifier; the New action passes the UI combobox label through
unchanged, so a tab created via New holds the lowercased UI label. -/
def newTabLanguage (label : String) : String := strLower label

/-- The values of the language combobox in the toolbar. -/
def uiLanguageLabels : List String :=
  ["Python", "C", "C++", "HTML", "CSS", "JavaScript", "TypeScript",
   "Rust", "Java", "Lua", "Go", "C#", "Ruby", "Kotlin", "Nix"]

-- ---------------------------------------------------------------------------
-- Run dispatcher (`runner` inside `VanillaStudioApp.run_current`).
-- ---------------------------------------------------------------------------

/-- A file path, modelled as the parent directory plus the final
component (the only parts the runner inspects). -/
structure SrcPath where
  dir : String
  base : String
  deriving Repr, DecidableEq

/-- The full path string. -/
def SrcPath.str (p : SrcPath) : String := p.dir ++ "/" ++ p.base

/-- `Path.with_suffix` lifted to paths. -/
def SrcPath.withSuffix (p : SrcPath) (suf : String) : SrcPath :=
  { dir := p.dir, base := pyWithSuffix p.base suf }

/-- `filepath.resolve().as_uri()`, abstracted. -/
def SrcPath.uri (p : SrcPath) : String := "file://" ++ p.str

/-- `sys.executable`: the path of the running Python interpreter
(opaque to the program; any fixed token serves the model). -/
def sysExecutable : String := "sys.executable"

/-- Observable actions of one run: an external process spawn (argument
vector plus working directory), a console append, or opening a file in
the system browser. -/
inductive Event where
  | spawn (cmd : List String) (cwd : String)
  | append (txt : String)
  | browse (url : String)
  deriving Repr, DecidableEq

/-- Whether an event is a process spawn. -/
def Event.isSpawn : Event → Bool
  | .spawn _ _ => true
  | _ => false

/-- Console appends of a finished step: stdout then stderr, each only
when non-empty (the `if out:` / `if err:` pattern of the source). -/
def outErrEvents (out err : String) : List Event :=
  (if out == "" then [] else [Event.append out]) ++
  (if err == "" then [] else [Event.append err])

/-- The `runner` closure of `run_current`, as a trace of observable
events.  `wh` is the PATH-presence oracle (`which`), `projExists`
models `(proj_dir / "project.csproj").exists()`, and `exec` maps an
argument vector to the `(returncode, stdout, stderr)` triple that
`safe_run_subprocess` returns for it.  Every branch mirrors the
corresponding `elif` of the source. -/
def runner (lang : String) (fp : SrcPath) (wh : String → Bool)
    (projExists : Bool) (exec : List String → Int × String × String) :
    List Event :=
  if lang == "python" then
    let r := exec [sysExecutable, fp.str]
    Event.spawn [sysExecutable, fp.str] fp.dir :: outErrEvents r.2.1 r.2.2
  else if lang == "c" || lang == "cpp" || lang == "c++" then
    let compiler := if lang == "c" then "gcc" else "g++"
    if !wh compiler then
      [Event.append ("Compiler \x27" ++ compiler ++ "\x27 not found in PATH.\n")]
    else
      let exe := fp.withSuffix ".out"
      let r := exec [compiler, fp.str, "-o", exe.str]
      if r.1 != 0 then
        Event.spawn [compiler, fp.str, "-o", exe.str] fp.dir :: outErrEvents r.2.1 r.2.2
      else
        let r2 := exec [exe.str]
        Event.spawn [compiler, fp.str, "-o", exe.str] fp.dir ::
          Event.spawn [exe.str] fp.dir :: outErrEvents r2.2.1 r2.2.2
  else if lang == "rust" then
    if wh "rustc" then
      let exe := (fp.withSuffix "").withSuffix ".out"
      let r := exec ["rustc", fp.str, "-o", exe.str]
      if r.1 != 0 then
        Event.spawn ["rustc", fp.str, "-o", exe.str] fp.dir :: outErrEvents r.2.1 r.2.2
      else
        let r2 := exec [exe.str]
        Event.spawn ["rustc", fp.str, "-o", exe.str] fp.dir ::
          Event.spawn [exe.str] fp.dir :: outErrEvents r2.2.1 r2.2.2
    else [Event.append "rustc not found in PATH.\n"]
  else if lang == "go" then
    if wh "go" then
      let r := exec ["go", "run", fp.str]
      Event.spawn ["go", "run", fp.str] fp.dir :: outErrEvents r.2.1 r.2.2
    else [Event.append "go not found in PATH.\n"]
  else if lang == "java" then
    if wh "javac" && wh "java" then
      let r := exec ["javac", fp.str]
      if r.1 != 0 then
        Event.spawn ["javac", fp.str] fp.dir :: outErrEvents r.2.1 r.2.2
      else
        let classname := String.mk (pyStemL fp.base.toList)
        let r2 := exec ["java", classname]
        Event.spawn ["javac", fp.str] fp.dir ::
          Event.spawn ["java", classname] fp.dir :: outErrEvents r2.2.1 r2.2.2
    else [Event.append "javac/java not found in PATH.\n"]
  else if lang == "javascript" || lang == "js" then
    if wh "node" then
      let r := exec ["node", fp.str]
      Event.spawn ["node", fp.str] fp.dir :: outErrEvents r.2.1 r.2.2
    else
      [Event.browse fp.uri,
       Event.append "Node not found — opened file in browser instead.\n"]
  else if lang == "typescript" || lang == "ts" then
    if wh "tsc" then
      let jsOut := fp.withSuffix ".js"
      let r := exec ["tsc", fp.str, "--outFile", jsOut.str]
      if r.1 != 0 then
        Event.spawn ["tsc", fp.str, "--outFile", jsOut.str] fp.dir ::
          outErrEvents r.2.1 r.2.2
      else if wh "node" then
        let r2 := exec ["node", jsOut.str]
        Event.spawn ["tsc", fp.str, "--outFile", jsOut.str] fp.dir ::
          Event.spawn ["node", jsOut.str] fp.dir :: outErrEvents r2.2.1 r2.2.2
      else
        [Event.spawn ["tsc", fp.str, "--outFile", jsOut.str] fp.dir,
         Event.browse jsOut.uri,
         Event.append "Node not found — opened compiled JS in browser.\n"]
    else [Event.append "tsc (TypeScript compiler) not found in PATH.\n"]
  else if lang == "lua" then
    if wh "lua" then
      let r := exec ["lua", fp.str]
      Event.spawn ["lua", fp.str] fp.dir :: outErrEvents r.2.1 r.2.2
    else [Event.append "lua not found in PATH.\n"]
  else if lang == "html" || lang == "htm" || lang == "css" then
    [Event.browse fp.uri,
     Event.append ("Opened " ++ fp.str ++ " in default browser.\n")]
  else if lang == "csharp" then
    if wh "dotnet" then
      let scaffold :=
        if !projExists then [Event.spawn ["dotnet", "new", "console", "-o", "."] fp.dir]
        else []
      let r := exec ["dotnet", "run"]
      scaffold ++ Event.spawn ["dotnet", "run"] fp.dir :: outErrEvents r.2.1 r.2.2
    else [Event.append ".NET SDK not found in PATH.\n"]
  else if lang == "ruby" then
    if wh "ruby" then
      let r := exec ["ruby", fp.str]
      Event.spawn ["ruby", fp.str] fp.dir :: outErrEvents r.2.1 r.2.2
    else [Event.append "Ruby not found in PATH.\n"]
  else if lang == "kotlin" then
    if wh "kotlinc" then
      let r := exec ["kotlinc", fp.str, "-include-runtime", "-d", "out.jar"]
      if r.1 != 0 then
        Event.spawn ["kotlinc", fp.str, "-include-runtime", "-d", "out.jar"] fp.dir ::
          outErrEvents r.2.1 r.2.2
      else
        let r2 := exec ["java", "-jar", "out.jar"]
        Event.spawn ["kotlinc", fp.str, "-include-runtime", "-d", "out.jar"] fp.dir ::
          Event.spawn ["java", "-jar", "out.jar"] fp.dir :: outErrEvents r2.2.1 r2.2.2
    else [Event.append "Kotlin compiler not found in PATH.\n"]
  else if lang == "nix" then
    if wh "nix" then
      if fp.base == "flake.nix" then
        let r := exec ["nix", "develop", "."]
        Event.spawn ["nix", "develop", "."] fp.dir :: outErrEvents r.2.1 r.2.2
      else
        let r := exec ["nix-shell", fp.str]
        Event.spawn ["nix-shell", fp.str] fp.dir :: outErrEvents r.2.1 r.2.2
    else [Event.append "Nix not found in PATH.\n"]
  else [Event.append "Unknown language: cannot run.\n"]

-- ---------------------------------------------------------------------------
-- Fallback highlighter (`EditorTab._basic_highlight`).
-- Each `re.finditer(pattern, content)` loop is modelled by `scan` of a
-- per-pattern matcher: at a position the matcher returns the end offset
-- of the (unique, leftmost-alternative, lazy) match starting there, and
-- `scan` walks the text left to right restarting after each match,
-- exactly as `finditer` does for these patterns (none of which can
-- match the empty string).
-- ---------------------------------------------------------------------------

/-- One `re.finditer` pass: repeatedly try the matcher at the current
position; on a match emit its span and continue at its end, otherwise
advance one character.  The fuel equals the text length, which bounds
the number of iterations since the position strictly increases. -/
def scanAux (m : List Char → Nat → Option Nat) (cs : List Char) :
    Nat → Nat → List (Nat × Nat)
  | 0, _ => []
  | fuel + 1, pos =>
    if pos < cs.length then
      match m cs pos with
      | some e => (pos, e) :: scanAux m cs fuel (max e (pos + 1))
      | none => scanAux m cs fuel (pos + 1)
    else []

/-- All non-overlapping matches of a pattern over the text. -/
def scan (m : List Char → Nat → Option Nat) (cs : List Char) : List (Nat × Nat) :=
  scanAux m cs cs.length 0

/-- Matcher for the line-comment patterns `#.*` and `//.*`: at an
occurrence of the marker the match extends to just before the next
newline (`.` does not cross newlines without DOTALL). -/
def lineCommentMatch (marker : List Char) (cs : List Char) (pos : Nat) : Option Nat :=
  if marker.isPrefixOf (cs.drop pos) then
    some (pos + ((cs.drop pos).takeWhile (fun c => c != '\n')).length)
  else none

/-- Matcher for the DOTALL lazy block comment `/\*.*?\*/`: from an
opening `/*`, the match ends at the earliest following `*/`. -/
def blockCommentMatch (cs : List Char) (pos : Nat) : Option Nat :=
  if ['/', '*'].isPrefixOf (cs.drop pos) then
    match findFrom cs ['*', '/'] (pos + 2) with
    | some j => some (j + 2)
    | none => none
  else none

/-- Matcher for a DOTALL lazy single-character-delimited string, for any
of the given quote characters (the alternatives of e.g. `".*?"|'.*?'`
start with distinct characters, so trying them by starting character is
the regex's left-to-right alternation). -/
def quoteMatch (quotes : List Char) (cs : List Char) (pos : Nat) : Option Nat :=
  match cs.drop pos with
  | [] => none
  | c :: _ =>
    if quotes.contains c then
      match findFrom cs [c] (pos + 1) with
      | some j => some (j + 1)
      | none => none
    else none

/-- Matcher for a DOTALL lazy triple-quoted string `qqq.*?qqq`. -/
def tripleMatch (q : Char) (cs : List Char) (pos : Nat) : Option Nat :=
  if [q, q, q].isPrefixOf (cs.drop pos) then
    match findFrom cs [q, q, q] (pos + 3) with
    | some j => some (j + 3)
    | none => none
  else none

/-- Matcher for the Python string alternation
`\"\"\".*?\"\"\"|'''.*?'''|\".*?\"|'.*?'` (alternatives in source
order; a triple opener without a closer falls through to the
single-quote alternatives, as regex backtracking does). -/
def pyStringMatch (cs : List Char) (pos : Nat) : Option Nat :=
  (tripleMatch '"' cs pos).orElse fun _ =>
    (tripleMatch squote cs pos).orElse fun _ =>
      (quoteMatch ['"'] cs pos).orElse fun _ =>
        quoteMatch [squote] cs pos

/-- Matcher for the Ruby `%[qQ]?{...}` / `%[qQ]?[...]` quoting form with
the given open/close pair: `%`, an optional `q`/`Q`, the opener, then
lazily to the earliest closer. -/
def rubyPctMatch (openC closeC : Char) (cs : List Char) (pos : Nat) : Option Nat :=
  if cs.get? pos == some '%' then
    let st :=
      if (cs.get? (pos + 1) == some 'q' || cs.get? (pos + 1) == some 'Q')
          && cs.get? (pos + 2) == some openC then
        some (pos + 3)
      else if cs.get? (pos + 1) == some openC then some (pos + 2)
      else none
    match st with
    | some s =>
      match findFrom cs [closeC] s with
      | some j => some (j + 1)
      | none => none
    | none => none
  else none

/-- Matcher for the Ruby string alternation (Python string forms plus
the `%q{...}`/`%Q[...]` forms, in source order). -/
def rubyStringMatch (cs : List Char) (pos : Nat) : Option Nat :=
  (pyStringMatch cs pos).orElse fun _ =>
    (rubyPctMatch '\x7b' '\x7d' cs pos).orElse fun _ =>
      rubyPctMatch '[' ']' cs pos

/-- Matcher for the Nix string alternation `\".*?\"|''.*?''`. -/
def nixStringMatch (cs : List Char) (pos : Nat) : Option Nat :=
  (quoteMatch ['"'] cs pos).orElse fun _ =>
    (if [squote, squote].isPrefixOf (cs.drop pos) then
      match findFrom cs [squote, squote] (pos + 2) with
      | some j => some (j + 2)
      | none => none
    else none)

/-- Whether the character at index `i` is a `\w` character (`false` past
either end of the text). -/
def wordAt (cs : List Char) (i : Nat) : Bool :=
  match cs.get? i with
  | some c => isWordChar c
  | none => false

/-- The regex word boundary `\b` between offsets `i - 1` and `i`. -/
def wordBoundary (cs : List Char) (i : Nat) : Bool :=
  if i = 0 then wordAt cs 0
  else wordAt cs (i - 1) != wordAt cs i

/-- Matcher for `\b(?:k1|k2|...)\b`: at a word boundary, the first
keyword of the alternation that occurs here with a word boundary after
it (a shorter keyword that is a prefix of a matching longer one cannot
satisfy the trailing boundary, so this is the regex's behaviour with
backtracking included). -/
def kwMatch (kws : List (List Char)) (cs : List Char) (pos : Nat) : Option Nat :=
  if wordBoundary cs pos then
    match kws.find? (fun k =>
        k.isPrefixOf (cs.drop pos) && wordBoundary cs (pos + k.length)) with
    | some k => some (pos + k.length)
    | none => none
  else none

/-- Matcher for the HTML tag pattern `<[^>]+>`: a `<`, at least one
non-`>` character (the greedy run necessarily stops at the first `>`),
then that `>`. -/
def htmlTagMatch (cs : List Char) (pos : Nat) : Option Nat :=
  if cs.get? pos == some '<' then
    let rest := cs.drop (pos + 1)
    let r := (rest.takeWhile (fun c => c != '>')).length
    if 1 ≤ r && r < rest.length then some (pos + 1 + r + 1) else none
  else none

/-- Matcher for the HTML attribute pattern `(\w+)(?=\=)`: a maximal
non-empty word run whose next character is `=` (the lookahead is not
part of the span). -/
def htmlAttrMatch (cs : List Char) (pos : Nat) : Option Nat :=
  let rest := cs.drop pos
  let r := (rest.takeWhile isWordChar).length
  if 1 ≤ r && rest.get? r == some '=' then some (pos + r) else none

/-- The Python keyword alternation of `_basic_highlight`, in source order. -/
def pythonKeywords : List String :=
  ["def", "class", "if", "else", "elif", "for", "while", "try", "except",
   "finally", "with", "as", "import", "from", "return", "in", "is", "and",
   "or", "not", "lambda", "pass", "break", "continue", "yield", "global",
   "nonlocal", "assert", "del"]

/-- The C-family keyword alternation (C/C++/Rust/Java/Go/C#/Kotlin
branch), in source order. -/
def clikeKeywords : List String :=
  ["int", "char", "float", "double", "void", "if", "else", "for", "while",
   "do", "switch", "case", "break", "continue", "return", "struct",
   "typedef", "enum", "const", "static", "extern", "sizeof", "class",
   "public", "private", "protected", "using", "namespace", "package",
   "import", "func", "let", "var", "impl", "trait", "fn", "match", "mod",
   "println", "println!", "string", "bool", "interface", "virtual",
   "override", "sealed", "abstract", "readonly", "async", "await", "fun",
   "val", "suspend", "companion", "object", "init", "constructor",
   "internal", "open", "final", "data", "get", "set"]

/-- The Ruby keyword alternation, in source order. -/
def rubyKeywords : List String :=
  ["def", "class", "if", "else", "elsif", "end", "unless", "case", "when",
   "while", "until", "for", "in", "do", "module", "begin", "rescue",
   "ensure", "yield", "return", "super", "self", "nil", "true", "false",
   "and", "or", "not", "alias", "undef", "BEGIN", "END"]

/-- The Nix keyword alternation, in source order. -/
def nixKeywords : List String :=
  ["let", "in", "rec", "with", "inherit", "or", "import", "importall",
   "builtins", "null", "true", "false", "mkDerivation", "mkShell",
   "fetchFromGitHub", "stdenv", "lib", "pkgs"]

/-- The JS/TS/Lua keyword alternation, in source order. -/
def jsKeywords : List String :=
  ["function", "var", "let", "const", "if", "else", "for", "while",
   "return", "new", "this", "class", "extends", "constructor", "import",
   "from", "export", "await", "async", "console", "print"]

/-- The visual categories of `_setup_tags` (`kw`, `builtin`, `comment`,
`string`, `number`, `operator`, `tag`, `attr`). -/
inductive Tag where
  | kw | builtin | comment | str | num | op | tagc | attr
  deriving Repr, DecidableEq

/-- Attach a category to each span of one pattern pass. -/
def tagged (t : Tag) (sp : List (Nat × Nat)) : List (Tag × Nat × Nat) :=
  sp.map fun p => (t, p.1, p.2)

/-- Keyword alternations as character lists. -/
def kwL (l : List String) : List (List Char) := l.map String.toList

/-- `EditorTab._basic_highlight`: the tag operations performed by the
fallback regex highlighter, in the order the source applies them, as
`(category, start offset, end offset)` spans. -/
def basicHighlight (lang : String) (content : String) : List (Tag × Nat × Nat) :=
  let cs := content.toList
  if lang == "python" then
    tagged .comment (scan (lineCommentMatch ['#']) cs) ++
    tagged .str (scan pyStringMatch cs) ++
    tagged .kw (scan (kwMatch (kwL pythonKeywords)) cs)
  else if ["c", "cpp", "c++", "rust", "java", "go", "csharp", "cs",
      "kotlin", "kt"].contains lang then
    tagged .comment (scan (lineCommentMatch ['/', '/']) cs) ++
    tagged .comment (scan blockCommentMatch cs) ++
    tagged .str (scan (quoteMatch ['"', squote]) cs) ++
    tagged .kw (scan (kwMatch (kwL clikeKeywords)) cs)
  else if lang == "ruby" || lang == "rb" then
    tagged .comment (scan (lineCommentMatch ['#']) cs) ++
    tagged .str (scan rubyStringMatch cs) ++
    tagged .kw (scan (kwMatch (kwL rubyKeywords)) cs)
  else if lang == "nix" then
    tagged .comment (scan (lineCommentMatch ['#']) cs) ++
    tagged .str (scan nixStringMatch cs) ++
    tagged .kw (scan (kwMatch (kwL nixKeywords)) cs)
  else if lang == "html" || lang == "htm" then
    tagged .tagc (scan htmlTagMatch cs) ++
    tagged .attr (scan htmlAttrMatch cs) ++
    tagged .str (scan (quoteMatch ['"', squote]) cs)
  else if lang == "css" then
    tagged .comment (scan blockCommentMatch cs) ++
    tagged .str (scan (quoteMatch ['"', squote]) cs)
  else if ["javascript", "js", "typescript", "ts", "lua"].contains lang then
    tagged .comment (scan (lineCommentMatch ['/', '/']) cs) ++
    tagged .comment (scan blockCommentMatch cs) ++
    tagged .str (scan (quoteMatch ['"', squote, btick]) cs) ++
    tagged .kw (scan (kwMatch (kwL jsKeywords)) cs)
  else []

/-- `EditorTab._highlight_with_pygments`, over an abstract token stream:
each token carries its already-mapped category (`none` when
`map_token_to_tag` yields no tag) and its text; the cursor `pos`
accumulates consumed length, and empty tokens are skipped. -/
def pygmentsSpans : Nat → List (Option Tag × String) → List (Tag × Nat × Nat)
  | _, [] => []
  | pos, (t?, s) :: rest =>
    if s == "" then pygmentsSpans pos rest
    else
      match t? with
      | some t => (t, pos, pos + s.length) :: pygmentsSpans (pos + s.length) rest
      | none => pygmentsSpans (pos + s.length) rest

/-- `EditorTab._index_from_pos`: the `line.column` text-widget index of
a character offset — `line` is one plus the newline count before `pos`,
`column` the length of the last `"\n"`-split segment of the prefix
(equivalently, the number of characters after its last newline). -/
def indexFromPos (content : String) (pos : Nat) : Nat × Nat :=
  let upto := content.toList.take pos
  let line := upto.count '\n' + 1
  let col :=
    if upto.contains '\n' then (upto.reverse.takeWhile (fun c => c != '\n')).length
    else upto.length
  (line, col)

/-- One-based position of the last newline among the first `pos`
characters of the text (`0` when there is none): the form in which the
specification states the column rule. -/
def lastNLPos1 (content : String) (pos : Nat) : Nat :=
  match lastIdxOf (content.toList.take pos) '\n' with
  | some i => i + 1
  | none => 0

-- ---------------------------------------------------------------------------
-- Editing aids: line-comment toggle and auto-indent on Return.
-- ---------------------------------------------------------------------------

/-- `str.lstrip()`: drop leading whitespace. -/
def lstripL (cs : List Char) : List Char := cs.dropWhile (fun c => c.isWhitespace)

/-- `str.strip()`: drop leading and trailing whitespace. -/
def stripL (cs : List Char) : List Char :=
  ((cs.dropWhile (fun c => c.isWhitespace)).reverse.dropWhile
    (fun c => c.isWhitespace)).reverse

/-- `l.strip() == ""`: the line is blank. -/
def isBlankL (cs : List Char) : Bool := cs.all (fun c => c.isWhitespace)

/-- `EditorTab.toggle_comment` restricted to the selected range, given
as the list of full line contents.  The marker is `prefix.strip()`
(`"#"` for Python, `"//"` otherwise); if every non-blank line starts
with it after leading whitespace, the first occurrence of the marker is
deleted from each line containing it (the `text.search` of the source),
otherwise the full prefix (`"# "` / `"// "`) is prepended to every
line. -/
def toggleComment (language : String) (lines : List String) : List String :=
  let pfx : String := if language == "python" then "# " else "// "
  let marker : List Char := stripL pfx.toList
  let ls : List (List Char) := lines.map String.toList
  if (ls.filter (fun l => !isBlankL l)).all (fun l => marker.isPrefixOf (lstripL l)) then
    (ls.map (fun l =>
      match findFrom l marker 0 with
      | some j => l.take j ++ l.drop (j + marker.length)
      | none => l)).map (fun cs => String.mk cs)
  else lines.map (fun l => pfx ++ l)

/-- The visible state of the text widget: its lines (index 0 holding
Tk line 1) and the insertion cursor as a one-based line number plus a
zero-based column. -/
structure Buffer where
  lines : List String
  curLine : Nat
  curCol : Nat
  deriving Repr, DecidableEq

/-- The leading whitespace of a line (the `^(\s*)` group). -/
def leadingWS (s : String) : String :=
  String.mk (s.toList.takeWhile (fun c => c.isWhitespace))

/-- `str.rstrip()`. -/
def rstrip (s : String) : String :=
  String.mk ((s.toList.reverse.dropWhile (fun c => c.isWhitespace)).reverse)

/-- `s.endswith(c)` for a single character. -/
def endsWithChar (s : String) (c : Char) : Bool := s.toList.getLast? == some c

/-- The first non-whitespace character of a line (`re.search(r"\S", ...)`). -/
def firstNonWS (s : String) : Option Char :=
  (s.toList.dropWhile (fun c => c.isWhitespace)).head?

/-- `EditorTab.on_return_key`: reads the cursor's `line.col`, takes the
text of line `line - 1` (empty when the cursor is on line 1), copies
its leading whitespace as the new indent and adds four spaces when that
text, right-stripped, ends with `:` (Python only) or `{`; when the
first non-blank character of the cursor's line is `}` or `)` a wrapped
two-line block is inserted, otherwise a single newline plus indent.
The source suppresses Tk's own newline by returning `"break"`, so this
is the whole effect on the buffer. -/
def onReturnKey (language : String) (b : Buffer) : Buffer :=
  let line := b.curLine
  let col := b.curCol
  let prevLineText := if line > 1 then b.lines.getD (line - 2) "" else ""
  let indent := leadingWS prevLineText
  let prevStripped := rstrip prevLineText
  let openerIncrease :=
    (language == "python" && endsWithChar prevStripped ':')
      || endsWithChar prevStripped '\x7b'
  let extra : String := if openerIncrease then "    " else ""
  let restOfLine := b.lines.getD (line - 1) ""
  let beforeCur := String.mk (restOfLine.toList.take col)
  let afterCur := String.mk (restOfLine.toList.drop col)
  if firstNonWS restOfLine == some '\x7d' || firstNonWS restOfLine == some ')' then
    { lines := b.lines.take (line - 1) ++
        [beforeCur, indent ++ extra, indent ++ afterCur] ++ b.lines.drop line,
      curLine := line + 1, curCol := (indent ++ extra).length }
  else
    { lines := b.lines.take (line - 1) ++
        [beforeCur, indent ++ extra ++ afterCur] ++ b.lines.drop line,
      curLine := line + 1, curCol := (indent ++ extra).length }

-- ---------------------------------------------------------------------------
-- Generic lemmas about the scanning infrastructure.
-- ---------------------------------------------------------------------------

theorem findFromAux_spec {cs pat : List Char} :
    ∀ fuel i j, findFromAux cs pat fuel i = some j →
      i ≤ j ∧ j ≤ cs.length ∧ pat.isPrefixOf (cs.drop j) = true := by
  intro fuel
  induction fuel with
  | zero => intro i j h; simp [findFromAux] at h
  | succ n ih =>
    intro i j h
    rw [findFromAux] at h
    by_cases hi : i ≤ cs.length
    · rw [if_pos hi] at h
      by_cases hp : pat.isPrefixOf (cs.drop i) = true
      · rw [if_pos hp] at h
        cases h
        exact ⟨Nat.le_refl _, hi, hp⟩
      · rw [if_neg hp] at h
        obtain ⟨h1, h2, h3⟩ := ih (i + 1) j h
        exact ⟨Nat.le_of_succ_le h1, h2, h3⟩
    · rw [if_neg hi] at h
      exact absurd h (by simp)

theorem findFrom_spec {cs pat : List Char} {i j : Nat}
    (h : findFrom cs pat i = some j) :
    i ≤ j ∧ j ≤ cs.length ∧ pat.isPrefixOf (cs.drop j) = true :=
  findFromAux_spec _ i j h

/-- If `pat` occurs at `j`, the occurrence fits inside the text. -/
theorem occurrence_end_le {cs pat : List Char} {j : Nat}
    (hj : j ≤ cs.length) (hp : pat.isPrefixOf (cs.drop j) = true) :
    j + pat.length ≤ cs.length := by
  have hle : pat.length ≤ (cs.drop j).length :=
    (List.isPrefixOf_iff_prefix.mp hp).length_le
  rw [List.length_drop] at hle
  omega

/-- A matcher is bounded when every match it reports starts no earlier
than the requested position and ends within the text. -/
def MatchBound (m : List Char → Nat → Option Nat) : Prop :=
  ∀ cs pos e, m cs pos = some e → pos ≤ e ∧ e ≤ cs.length

theorem scanAux_bounds {m : List Char → Nat → Option Nat} (hm : MatchBound m)
    (cs : List Char) :
    ∀ fuel pos p, p ∈ scanAux m cs fuel pos → p.1 ≤ p.2 ∧ p.2 ≤ cs.length := by
  intro fuel
  induction fuel with
  | zero => intro pos p hp; simp [scanAux] at hp
  | succ n ih =>
    intro pos p hp
    rw [scanAux] at hp
    by_cases hpos : pos < cs.length
    · rw [if_pos hpos] at hp
      cases he : m cs pos with
      | some e =>
        rw [he] at hp
        rcases List.mem_cons.mp hp with h | h
        · subst h; exact hm cs pos e he
        · exact ih _ p h
      | none =>
        rw [he] at hp
        exact ih _ p hp
    · rw [if_neg hpos] at hp
      simp at hp

theorem scan_bounds {m : List Char → Nat → Option Nat} (hm : MatchBound m)
    {cs : List Char} {p : Nat × Nat} (hp : p ∈ scan m cs) :
    p.1 ≤ p.2 ∧ p.2 ≤ cs.length :=
  scanAux_bounds hm cs cs.length 0 p hp

/-- Every span a scan emits starts at or after the scan position. -/
theorem scanAux_start_ge {m : List Char → Nat → Option Nat} (cs : List Char) :
    ∀ fuel pos p, p ∈ scanAux m cs fuel pos → pos ≤ p.1 := by
  intro fuel
  induction fuel with
  | zero => intro pos p hp; simp [scanAux] at hp
  | succ n ih =>
    intro pos p hp
    rw [scanAux] at hp
    by_cases hpos : pos < cs.length
    · rw [if_pos hpos] at hp
      cases he : m cs pos with
      | some e =>
        rw [he] at hp
        rcases List.mem_cons.mp hp with h | h
        · subst h; exact Nat.le_refl _
        · have := ih _ p h
          omega
      | none =>
        rw [he] at hp
        have := ih _ p hp
        omega
    · rw [if_neg hpos] at hp
      simp at hp

/-- Successive spans of one scan are disjoint: each span ends no later
than any later span starts. -/
theorem scanAux_pairwise {m : List Char → Nat → Option Nat} (cs : List Char) :
    ∀ fuel pos, (scanAux m cs fuel pos).Pairwise (fun a b => a.2 ≤ b.1) := by
  intro fuel
  induction fuel with
  | zero => intro pos; simp [scanAux]
  | succ n ih =>
    intro pos
    rw [scanAux]
    by_cases hpos : pos < cs.length
    · rw [if_pos hpos]
      cases he : m cs pos with
      | some e =>
        refine List.pairwise_cons.mpr ⟨?_, ih _⟩
        intro p hp
        have := scanAux_start_ge cs n (max e (pos + 1)) p hp
        omega
      | none => exact ih _
    · rw [if_neg hpos]
      simp

theorem scan_pairwise {m : List Char → Nat → Option Nat} (cs : List Char) :
    (scan m cs).Pairwise (fun a b => a.2 ≤ b.1) :=
  scanAux_pairwise cs cs.length 0

-- ---------------------------------------------------------------------------
-- Boundedness of the individual pattern matchers.
-- ---------------------------------------------------------------------------

theorem lineCommentMatch_bound {marker : List Char} (hm : marker ≠ []) :
    MatchBound (lineCommentMatch marker) := by
  intro cs pos e h
  rw [lineCommentMatch] at h
  by_cases hp : marker.isPrefixOf (cs.drop pos) = true
  · rw [if_pos hp] at h
    cases h
    have hlen : marker.length ≤ (cs.drop pos).length :=
      (List.isPrefixOf_iff_prefix.mp hp).length_le
    have hml : 0 < marker.length := List.length_pos.mpr hm
    have hdl : (cs.drop pos).length = cs.length - pos := List.length_drop _ _
    have htw : ((cs.drop pos).takeWhile (fun c => c != '\n')).length ≤
        (cs.drop pos).length :=
      (List.takeWhile_sublist _).length_le
    constructor
    · omega
    · omega
  · rw [if_neg hp] at h
    exact absurd h (by simp)

theorem blockCommentMatch_bound : MatchBound blockCommentMatch := by
  intro cs pos e h
  rw [blockCommentMatch] at h
  by_cases hp : (['/', '*'] : List Char).isPrefixOf (cs.drop pos) = true
  · rw [if_pos hp] at h
    cases hf : findFrom cs ['*', '/'] (pos + 2) with
    | some j =>
      rw [hf] at h
      cases h
      obtain ⟨h1, h2, h3⟩ := findFrom_spec hf
      have := occurrence_end_le h2 h3
      simp at this
      constructor <;> omega
    | none => rw [hf] at h; exact absurd h (by simp)
  · rw [if_neg hp] at h
    exact absurd h (by simp)

theorem quoteMatch_bound (quotes : List Char) : MatchBound (quoteMatch quotes) := by
  intro cs pos e h
  simp only [quoteMatch] at h
  split at h
  · exact absurd h (by simp)
  · split at h
    · split at h
      · rename_i j hf
        cases h
        obtain ⟨h1, h2, h3⟩ := findFrom_spec hf
        have := occurrence_end_le h2 h3
        simp at this
        constructor <;> omega
      · exact absurd h (by simp)
    · exact absurd h (by simp)

theorem tripleMatch_bound (q : Char) : MatchBound (tripleMatch q) := by
  intro cs pos e h
  rw [tripleMatch] at h
  by_cases hp : ([q, q, q] : List Char).isPrefixOf (cs.drop pos) = true
  · rw [if_pos hp] at h
    cases hf : findFrom cs [q, q, q] (pos + 3) with
    | some j =>
      rw [hf] at h
      cases h
      obtain ⟨h1, h2, h3⟩ := findFrom_spec hf
      have := occurrence_end_le h2 h3
      simp at this
      constructor <;> omega
    | none => rw [hf] at h; exact absurd h (by simp)
  · rw [if_neg hp] at h
    exact absurd h (by simp)

theorem orElse_bound {m₁ m₂ : List Char → Nat → Option Nat}
    (h₁ : MatchBound m₁) (h₂ : MatchBound m₂) :
    MatchBound (fun cs pos => (m₁ cs pos).orElse fun _ => m₂ cs pos) := by
  intro cs pos e h
  simp only at h
  cases hm : m₁ cs pos with
  | some e' =>
    rw [hm] at h
    simp only [Option.orElse] at h
    cases h
    exact h₁ cs pos e hm
  | none =>
    rw [hm] at h
    simp only [Option.orElse] at h
    exact h₂ cs pos e h

theorem pyStringMatch_bound : MatchBound pyStringMatch :=
  orElse_bound (tripleMatch_bound _)
    (orElse_bound (tripleMatch_bound _)
      (orElse_bound (quoteMatch_bound _) (quoteMatch_bound _)))

theorem rubyPctMatch_bound (openC closeC : Char) :
    MatchBound (rubyPctMatch openC closeC) := by
  intro cs pos e h
  simp only [rubyPctMatch] at h
  split at h
  · split at h
    · rename_i s hs
      have hsp : pos + 2 ≤ s := by
        split at hs
        · cases hs; omega
        · split at hs
          · cases hs; omega
          · exact absurd hs (by simp)
      split at h
      · rename_i j hf
        cases h
        obtain ⟨h1, h2, h3⟩ := findFrom_spec hf
        have := occurrence_end_le h2 h3
        simp at this
        constructor <;> omega
      · exact absurd h (by simp)
    · exact absurd h (by simp)
  · exact absurd h (by simp)

theorem rubyStringMatch_bound : MatchBound rubyStringMatch :=
  orElse_bound pyStringMatch_bound
    (orElse_bound (rubyPctMatch_bound _ _) (rubyPctMatch_bound _ _))

theorem nixDoubleSingleQuote_bound :
    MatchBound (fun cs pos =>
      if [squote, squote].isPrefixOf (cs.drop pos) then
        match findFrom cs [squote, squote] (pos + 2) with
        | some j => some (j + 2)
        | none => none
      else none) := by
  intro cs pos e h
  simp only at h
  split at h
  · split at h
    · rename_i j hf
      cases h
      obtain ⟨h1, h2, h3⟩ := findFrom_spec hf
      have := occurrence_end_le h2 h3
      simp at this
      constructor <;> omega
    · exact absurd h (by simp)
  · exact absurd h (by simp)

theorem nixStringMatch_bound : MatchBound nixStringMatch :=
  orElse_bound (quoteMatch_bound _) nixDoubleSingleQuote_bound

theorem kwMatch_bound {kws : List (List Char)} (hk : ∀ k ∈ kws, k ≠ []) :
    MatchBound (kwMatch kws) := by
  intro cs pos e h
  rw [kwMatch] at h
  by_cases hb : wordBoundary cs pos = true
  · rw [if_pos hb] at h
    cases hf : kws.find? (fun k =>
        k.isPrefixOf (cs.drop pos) && wordBoundary cs (pos + k.length)) with
    | some k =>
      rw [hf] at h
      cases h
      have hpred := List.find?_some hf
      have hmem := List.mem_of_find?_eq_some hf
      have hpre : k.isPrefixOf (cs.drop pos) = true := by
        have := Bool.and_elim_left hpred
        exact this
      have hlen : k.length ≤ (cs.drop pos).length :=
        (List.isPrefixOf_iff_prefix.mp hpre).length_le
      have hkne : k ≠ [] := hk k hmem
      have hkl : 0 < k.length := List.length_pos.mpr hkne
      rw [List.length_drop] at hlen
      constructor <;> omega
    | none => rw [hf] at h; exact absurd h (by simp)
  · rw [if_neg hb] at h
    exact absurd h (by simp)

theorem htmlTagMatch_bound : MatchBound htmlTagMatch := by
  intro cs pos e h
  rw [htmlTagMatch] at h
  by_cases hp : (cs.get? pos == some '<') = true
  · rw [if_pos hp] at h
    set r := ((cs.drop (pos + 1)).takeWhile (fun c => c != '>')).length with hr
    by_cases hc : (1 ≤ r && r < (cs.drop (pos + 1)).length) = true
    · rw [if_pos hc] at h
      cases h
      simp at hc
      have := List.length_drop (pos + 1) cs
      constructor <;> omega
    · rw [if_neg hc] at h
      exact absurd h (by simp)
  · rw [if_neg hp] at h
    exact absurd h (by simp)

theorem htmlAttrMatch_bound : MatchBound htmlAttrMatch := by
  intro cs pos e h
  rw [htmlAttrMatch] at h
  set rest := cs.drop pos with hrest
  set r := (rest.takeWhile isWordChar).length with hr
  by_cases hc : (1 ≤ r && rest.get? r == some '=') = true
  · rw [if_pos hc] at h
    cases h
    simp only [Bool.and_eq_true, beq_iff_eq] at hc
    have hlt : r < rest.length := by
      have := List.get?_eq_some.mp hc.2
      exact this.1
    have hrl : rest.length = cs.length - pos := by
      rw [hrest, List.length_drop]
    constructor <;> omega
  · rw [if_neg hc] at h
    exact absurd h (by simp)

-- ---------------------------------------------------------------------------
-- Span overlap, and disjointness of one pattern pass / one pygments pass.
-- ---------------------------------------------------------------------------

/-- Two half-open offset ranges share at least one character position. -/
def overlaps (a b : Nat × Nat) : Prop := max a.1 b.1 < min a.2 b.2

instance (a b : Nat × Nat) : Decidable (overlaps a b) :=
  inferInstanceAs (Decidable (_ < _))

theorem overlaps_iff (a b : Nat × Nat) :
    overlaps a b ↔ ∃ p, a.1 ≤ p ∧ p < a.2 ∧ b.1 ≤ p ∧ p < b.2 := by
  constructor
  · intro h
    unfold overlaps at h
    exact ⟨max a.1 b.1, Nat.le_max_left _ _, by omega, Nat.le_max_right _ _, by omega⟩
  · rintro ⟨p, h1, h2, h3, h4⟩
    unfold overlaps
    omega

theorem not_overlaps_of_le {a b : Nat × Nat} (h : a.2 ≤ b.1) : ¬ overlaps a b := by
  unfold overlaps
  omega

theorem tagged_bounds {m : List Char → Nat → Option Nat} (hm : MatchBound m)
    {t : Tag} {cs : List Char} {x : Tag × Nat × Nat}
    (hx : x ∈ tagged t (scan m cs)) : x.2.1 ≤ x.2.2 ∧ x.2.2 ≤ cs.length := by
  rcases List.mem_map.mp hx with ⟨p, hp, rfl⟩
  exact scan_bounds hm hp

theorem pygmentsSpans_start_ge :
    ∀ (toks : List (Option Tag × String)) (pos : Nat) (x : Tag × Nat × Nat),
      x ∈ pygmentsSpans pos toks → pos ≤ x.2.1 := by
  intro toks
  induction toks with
  | nil => intro pos x hx; simp [pygmentsSpans] at hx
  | cons tk rest ih =>
    intro pos x hx
    obtain ⟨t?, s⟩ := tk
    simp only [pygmentsSpans] at hx
    by_cases hs : (s == "") = true
    · rw [if_pos hs] at hx
      exact ih pos x hx
    · rw [if_neg hs] at hx
      cases t? with
      | some t =>
        rcases List.mem_cons.mp hx with h | h
        · subst h; exact Nat.le_refl _
        · have := ih (pos + s.length) x h
          omega
      | none =>
        have := ih (pos + s.length) x hx
        omega

theorem pygmentsSpans_pairwise :
    ∀ (toks : List (Option Tag × String)) (pos : Nat),
      (pygmentsSpans pos toks).Pairwise (fun a b => a.2.2 ≤ b.2.1) := by
  intro toks
  induction toks with
  | nil => intro pos; simp [pygmentsSpans]
  | cons tk rest ih =>
    intro pos
    obtain ⟨t?, s⟩ := tk
    simp only [pygmentsSpans]
    by_cases hs : (s == "") = true
    · rw [if_pos hs]; exact ih pos
    · rw [if_neg hs]
      cases t? with
      | some t =>
        refine List.pairwise_cons.mpr ⟨?_, ih _⟩
        intro x hx
        exact pygmentsSpans_start_ge rest (pos + s.length) x hx
      | none => exact ih _

-- Non-emptiness of the markers and keyword alternations, needed so a
-- reported match always has positive length.

theorem pythonKeywords_ne : ∀ k ∈ kwL pythonKeywords, k ≠ [] := by decide

theorem clikeKeywords_ne : ∀ k ∈ kwL clikeKeywords, k ≠ [] := by decide

theorem rubyKeywords_ne : ∀ k ∈ kwL rubyKeywords, k ≠ [] := by decide

theorem nixKeywords_ne : ∀ k ∈ kwL nixKeywords, k ≠ [] := by decide

theorem jsKeywords_ne : ∀ k ∈ kwL jsKeywords, k ≠ [] := by decide

-- ---------------------------------------------------------------------------
-- Claim C3: bounds of the fallback highlighter.
-- ---------------------------------------------------------------------------

/-- Claim C3 (confirmed).  For every document text and every language
identifier, the fallback regex highlighter — a total Lean function, so
it terminates and raises nothing — produces only spans `(t, s, e)` with
`0 ≤ s ≤ e ≤ len(text)`. -/
theorem basicHighlight_spans_bounded (lang content : String)
    (x : Tag × Nat × Nat) (hx : x ∈ basicHighlight lang content) :
    x.2.1 ≤ x.2.2 ∧ x.2.2 ≤ content.length := by
  have hlen : content.toList.length = content.length := rfl
  rw [← hlen]
  simp only [basicHighlight] at hx
  split at hx
  · rcases List.mem_append.mp hx with hx' | hx'
    · rcases List.mem_append.mp hx' with h | h
      · exact tagged_bounds (lineCommentMatch_bound (by decide)) h
      · exact tagged_bounds pyStringMatch_bound h
    · exact tagged_bounds (kwMatch_bound pythonKeywords_ne) hx'
  · split at hx
    · rcases List.mem_append.mp hx with hx' | hx'
      · rcases List.mem_append.mp hx' with hx'' | hx''
        · rcases List.mem_append.mp hx'' with h | h
          · exact tagged_bounds (lineCommentMatch_bound (by decide)) h
          · exact tagged_bounds blockCommentMatch_bound h
        · exact tagged_bounds (quoteMatch_bound _) hx''
      · exact tagged_bounds (kwMatch_bound clikeKeywords_ne) hx'
    · split at hx
      · rcases List.mem_append.mp hx with hx' | hx'
        · rcases List.mem_append.mp hx' with h | h
          · exact tagged_bounds (lineCommentMatch_bound (by decide)) h
          · exact tagged_bounds rubyStringMatch_bound h
        · exact tagged_bounds (kwMatch_bound rubyKeywords_ne) hx'
      · split at hx
        · rcases List.mem_append.mp hx with hx' | hx'
          · rcases List.mem_append.mp hx' with h | h
            · exact tagged_bounds (lineCommentMatch_bound (by decide)) h
            · exact tagged_bounds nixStringMatch_bound h
          · exact tagged_bounds (kwMatch_bound nixKeywords_ne) hx'
        · split at hx
          · rcases List.mem_append.mp hx with hx' | hx'
            · rcases List.mem_append.mp hx' with h | h
              · exact tagged_bounds htmlTagMatch_bound h
              · exact tagged_bounds htmlAttrMatch_bound h
            · exact tagged_bounds (quoteMatch_bound _) hx'
          · split at hx
            · rcases List.mem_append.mp hx with h | h
              · exact tagged_bounds blockCommentMatch_bound h
              · exact tagged_bounds (quoteMatch_bound _) h
            · split at hx
              · rcases List.mem_append.mp hx with hx' | hx'
                · rcases List.mem_append.mp hx' with hx'' | hx''
                  · rcases List.mem_append.mp hx'' with h | h
                    · exact tagged_bounds (lineCommentMatch_bound (by decide)) h
                    · exact tagged_bounds blockCommentMatch_bound h
                  · exact tagged_bounds (quoteMatch_bound _) hx''
                · exact tagged_bounds (kwMatch_bound jsKeywords_ne) hx'
              · simp at hx

/-- Concrete instantiation of the C3 theorem: the comment span of a
small Python document, with its bounds obtained from the theorem. -/
theorem basicHighlight_spans_bounded_witness :
    (Tag.comment, 0, 3) ∈ basicHighlight "python" "# x" ∧
      (0 ≤ 3 ∧ 3 ≤ ("# x" : String).length) :=
  ⟨by decide,
    ⟨Nat.zero_le _,
      (basicHighlight_spans_bounded "python" "# x" (Tag.comment, 0, 3) (by decide)).2⟩⟩

-- ---------------------------------------------------------------------------
-- Claim C8: span overlap within one highlighting pass.
-- ---------------------------------------------------------------------------

/-- Claim C8 (corrected).  Amended statement: in one highlighting pass,
the preferred (pygments) strategy produces pairwise non-overlapping
spans, and within the fallback pass the spans produced by any single
regex rule are pairwise non-overlapping; spans of different fallback
rules in the same pass may overlap (see the counterexample), the later
tag application winning. -/
theorem highlight_pass_nonoverlap :
    (∀ toks : List (Option Tag × String),
      (pygmentsSpans 0 toks).Pairwise (fun a b => ¬ overlaps a.2 b.2)) ∧
    ∀ (m : List Char → Nat → Option Nat) (cs : List Char),
      (scan m cs).Pairwise (fun a b => ¬ overlaps a b) := by
  constructor
  · intro toks
    exact (pygmentsSpans_pairwise toks 0).imp fun h => not_overlaps_of_le h
  · intro m cs
    exact (scan_pairwise cs).imp fun h => not_overlaps_of_le h

/-- Claim C8 counterexample: on the Python text `# 'a'`, the fallback
pass contains the comment rule's span `[0,5)` and the string rule's
span `[2,5)`, which share position 2, so the spans of one fallback
highlighting pass are not pairwise non-overlapping. -/
theorem basicHighlight_overlapping_spans :
    (Tag.comment, 0, 5) ∈ basicHighlight "python" "# \x27a\x27" ∧
    (Tag.str, 2, 5) ∈ basicHighlight "python" "# \x27a\x27" ∧
    overlaps (0, 5) (2, 5) ∧
    ¬ (basicHighlight "python" "# \x27a\x27").Pairwise
      (fun a b => ¬ overlaps a.2 b.2) := by
  refine ⟨by decide, by decide, by decide, ?_⟩
  intro hp
  have hl : basicHighlight "python" "# \x27a\x27" =
      [(Tag.comment, 0, 5), (Tag.str, 2, 5)] := by decide
  rw [hl] at hp
  have h1 := (List.pairwise_cons.mp hp).1 (Tag.str, 2, 5) (by decide)
  exact h1 (by decide)

-- ---------------------------------------------------------------------------
-- Claim C6: the offset → (line, column) conversion.
-- ---------------------------------------------------------------------------

theorem idxOfP_none {p : Char → Bool} :
    ∀ l, idxOfP p l = none → ∀ x ∈ l, p x = false := by
  intro l
  induction l with
  | nil => intro _ x hx; simp at hx
  | cons c rest ih =>
    intro h x hx
    rw [idxOfP] at h
    by_cases hc : p c = true
    · rw [if_pos hc] at h; exact absurd h (by simp)
    · rw [if_neg hc] at h
      rcases List.mem_cons.mp hx with rfl | hx'
      · exact Bool.not_eq_true _ ▸ (by simpa using hc)
      · cases hr : idxOfP p rest with
        | some j => rw [hr] at h; exact absurd h (by simp)
        | none => exact ih hr x hx'

theorem idxOfP_some {p : Char → Bool} :
    ∀ l j, idxOfP p l = some j →
      j < l.length ∧ (l.takeWhile (fun c => !(p c))).length = j ∧
        ∃ x ∈ l, p x = true := by
  intro l
  induction l with
  | nil => intro j h; simp [idxOfP] at h
  | cons c rest ih =>
    intro j h
    rw [idxOfP] at h
    by_cases hc : p c = true
    · rw [if_pos hc] at h
      cases h
      refine ⟨by simp, ?_, ⟨c, List.mem_cons_self _ _, hc⟩⟩
      rw [List.takeWhile_cons]
      simp [hc]
    · rw [if_neg hc] at h
      cases hr : idxOfP p rest with
      | none => rw [hr] at h; exact absurd h (by simp)
      | some j' =>
        rw [hr] at h
        simp only [Option.map_some'] at h
        cases h
        obtain ⟨h1, h2, x, hx, hpx⟩ := ih j' hr
        refine ⟨by simp; omega, ?_, ⟨x, List.mem_cons_of_mem _ hx, hpx⟩⟩
        rw [List.takeWhile_cons]
        simp [hc, h2]

/-- Claim C6 (confirmed).  For `0 ≤ pos ≤ len(text)`, the conversion
returns the line as one plus the number of newlines before `pos`, and
the column as `pos` minus the position of the last newline before `pos`
(`lastNLPos1`, the one-based position of that newline, `0` when there
is none — so the column is `pos` itself in that case). -/
theorem indexFromPos_line_col (content : String) (pos : Nat)
    (hpos : pos ≤ content.length) :
    indexFromPos content pos =
      ((content.toList.take pos).count '\n' + 1, pos - lastNLPos1 content pos) := by
  have hup : (content.toList.take pos).length = pos := by
    rw [List.length_take]
    exact Nat.min_eq_left hpos
  unfold indexFromPos lastNLPos1 lastIdxOf
  cases h : idxOfP (fun x => x == '\n') (content.toList.take pos).reverse with
  | none =>
    have hall := idxOfP_none _ h
    have hmem : ¬ '\n' ∈ content.toList.take pos := by
      intro hm
      have := hall '\n' (List.mem_reverse.mpr hm)
      simp at this
    have hcont : (content.toList.take pos).contains '\n' = false := by
      rw [← Bool.not_eq_true]
      intro hc
      exact hmem (List.elem_iff.mp hc)
    simp only [hcont, Bool.false_eq_true, if_false]
    rw [hup]
    simp
  | some j =>
    obtain ⟨h1, h2, x, hx, hpx⟩ := idxOfP_some _ j h
    have hxnl : x = '\n' := by simpa using hpx
    subst hxnl
    have hmem : '\n' ∈ content.toList.take pos := List.mem_reverse.mp hx
    have hcont : (content.toList.take pos).contains '\n' = true :=
      List.elem_iff.mpr hmem
    simp only [hcont, if_true]
    have htw : ((content.toList.take pos).reverse.takeWhile
        (fun c => c != '\n')).length = j := h2
    rw [htw]
    rw [List.length_reverse, hup] at h1
    congr 1
    omega

/-- Concrete instantiation of the C6 theorem at text `"ab\ncd"` and
offset 3 (just after the newline): line 2, column 0. -/
theorem indexFromPos_line_col_witness :
    3 ≤ ("ab\ncd" : String).length ∧
      indexFromPos "ab\ncd" 3 =
        ((("ab\ncd" : String).toList.take 3).count '\n' + 1,
          3 - lastNLPos1 "ab\ncd" 3) :=
  ⟨by decide, indexFromPos_line_col "ab\ncd" 3 (by decide)⟩

-- ---------------------------------------------------------------------------
-- Claim C7: save-path extension enforcement.
-- ---------------------------------------------------------------------------

theorem mk_append (a b : String) : String.mk (a.toList ++ b.toList) = a ++ b :=
  String.ext rfl

theorem toList_eq_nil_iff (s : String) : s.toList = [] ↔ s = "" := by
  constructor
  · intro h; exact String.ext h
  · intro h; subst h; rfl

theorem mk_eq_empty_iff (l : List Char) : String.mk l = "" ↔ l = [] := by
  constructor
  · intro h; exact congrArg String.data h
  · intro h; subst h; rfl

theorem idxOfP_append_none {p : Char → Bool} :
    ∀ l₁ l₂, (∀ x ∈ l₁, p x = false) →
      idxOfP p (l₁ ++ l₂) = (idxOfP p l₂).map (· + l₁.length) := by
  intro l₁
  induction l₁ with
  | nil =>
    intro l₂ _
    simp only [List.nil_append, List.length_nil]
    cases idxOfP p l₂ <;> simp
  | cons c rest ih =>
    intro l₂ hall
    rw [List.cons_append, idxOfP, if_neg (by simp [hall c (List.mem_cons_self _ _)])]
    rw [ih l₂ (fun x hx => hall x (List.mem_cons_of_mem _ hx))]
    cases idxOfP p l₂ <;> simp
    omega

/-- A well-formed canonical extension: a dot, then a non-empty run of
non-dot characters.  Every value of `LANG_EXT` satisfies this. -/
def extOkB (e : String) : Bool :=
  match e.toList with
  | '.' :: t => !t.contains '.' && !t.isEmpty
  | _ => false

theorem LANG_EXT_ok : ∀ p ∈ LANG_EXT, extOkB p.2 = true := by decide


theorem lastIdxOf_eq_some {cs : List Char} {c : Char} {j : Nat}
    (h : idxOfP (fun x => x == c) cs.reverse = some j) :
    lastIdxOf cs c = some (cs.length - 1 - j) := by
  unfold lastIdxOf
  rw [h]

theorem pySuffixL_eq_of_last {name : List Char} {i : Nat}
    (h : lastIdxOf name '.' = some i) :
    pySuffixL name =
      if 0 < i && i + 1 < name.length then name.drop i else [] := by
  unfold pySuffixL
  rw [h]

theorem savePath_eq_of_ext {language ext : String}
    (hext : langExt language = some ext) (name : String) :
    savePath language name =
      if pySuffix name == "" then pyWithSuffix name ext
      else if strLower (pySuffix name) != strLower ext then pyWithSuffix name ext
      else name := by
  unfold savePath
  rw [hext]

theorem extOkB_spec {e : String} (h : extOkB e = true) :
    ∃ t, e.toList = '.' :: t ∧ (∀ x ∈ t, (x == '.') = false) ∧ t ≠ [] := by
  unfold extOkB at h
  split at h
  · rename_i t het
    simp only [Bool.and_eq_true, Bool.not_eq_true'] at h
    refine ⟨t, het, ?_, ?_⟩
    · intro x hx
      by_contra hx'
      have hxd : x = '.' := by simpa using hx'
      subst hxd
      have hcc : t.contains '.' = true := List.elem_iff.mpr hx
      rw [h.1] at hcc
      exact absurd hcc (by simp)
    · intro ht
      subst ht
      simp at h
  · exact absurd h (by simp)

/-- Appending a well-formed extension to a non-empty name makes that
extension the `pathlib` suffix of the result. -/
theorem pySuffixL_append (base t : List Char) (hb : base ≠ [])
    (ht : ∀ x ∈ t, (x == '.') = false) (hne : t ≠ []) :
    pySuffixL (base ++ '.' :: t) = '.' :: t := by
  have hrev : (base ++ '.' :: t).reverse = t.reverse ++ '.' :: base.reverse := by
    rw [List.reverse_append, List.reverse_cons, List.append_assoc]
    rfl
  have hidx : idxOfP (fun x => x == '.') (base ++ '.' :: t).reverse =
      some t.length := by
    rw [hrev, idxOfP_append_none _ _ (fun x hx => ht x (List.mem_reverse.mp hx))]
    rw [idxOfP, if_pos (by simp)]
    simp
  have hbl : 0 < base.length := List.length_pos.mpr hb
  have htl : 0 < t.length := List.length_pos.mpr hne
  have hlen : (base ++ '.' :: t).length = base.length + t.length + 1 := by
    simp [List.length_append]
    omega
  have hli : lastIdxOf (base ++ '.' :: t) '.' = some base.length := by
    rw [lastIdxOf_eq_some hidx, hlen]
    congr 1
    omega
  rw [pySuffixL_eq_of_last hli, hlen,
    if_pos (by simp only [Bool.and_eq_true, decide_eq_true_eq]; omega)]
  exact List.drop_left base ('.' :: t)

theorem pySuffixL_cases (name : List Char) :
    pySuffixL name = [] ∨
      ∃ i, 0 < i ∧ i + 1 < name.length ∧ pySuffixL name = name.drop i := by
  cases h : lastIdxOf name '.' with
  | none =>
    left
    unfold pySuffixL
    rw [h]
  | some i =>
    rw [pySuffixL_eq_of_last h]
    by_cases h1 : 0 < i
    · by_cases h2 : i + 1 < name.length
      · right
        exact ⟨i, h1, h2, by rw [if_pos (by simp [h1, h2])]⟩
      · left
        rw [if_neg (by simp [h2])]
    · left
      rw [if_neg (by simp [h1])]

/-- Claim C7 (confirmed).  With `ext` the canonical extension of the
tab's language: a path with no suffix gets `ext` appended; a path whose
suffix differs from `ext` (the code compares after lowercasing both)
has it replaced, so the saved path's suffix is exactly `ext`; a path
whose suffix already equals `ext` up to case is kept unchanged; and the
untitled flow produces `"untitled" ++ ext`, whose suffix is `ext`. -/
theorem save_enforces_extension (language ext name : String)
    (hext : langExt language = some ext) :
    (pySuffix name = "" → savePath language name = name ++ ext) ∧
    (strLower (pySuffix name) ≠ strLower ext → name ≠ "" →
      pySuffix (savePath language name) = ext) ∧
    (pySuffix name ≠ "" → strLower (pySuffix name) = strLower ext →
      savePath language name = name) ∧
    (savePath language "untitled" = "untitled" ++ ext ∧
      pySuffix (savePath language "untitled") = ext) := by
  have hok : extOkB ext = true := by
    unfold langExt at hext
    rcases Option.map_eq_some'.mp hext with ⟨q, hq, hq2⟩
    have := LANG_EXT_ok q (List.mem_of_find?_eq_some hq)
    rw [hq2] at this
    exact this
  obtain ⟨t, het, ht, htne⟩ := extOkB_spec hok
  have hkeyL : ∀ l : List Char, l ≠ [] →
      pySuffixL (l ++ ext.toList) = ext.toList := by
    intro l hl
    rw [het]
    exact pySuffixL_append l t hl ht htne
  have hSuf : ∀ nm : String, nm ≠ "" → pySuffix (nm ++ ext) = ext := by
    intro nm hnm
    show String.mk (pySuffixL (nm ++ ext).toList) = ext
    have hdata : (nm ++ ext).toList = nm.toList ++ ext.toList :=
      String.data_append nm ext
    rw [hdata, hkeyL nm.toList (fun hc => hnm ((toList_eq_nil_iff nm).mp hc))]
    exact String.ext rfl
  have hA : ∀ nm : String, pySuffix nm = "" → savePath language nm = nm ++ ext := by
    intro nm h0
    have h0' : pySuffixL nm.toList = [] := congrArg String.data h0
    rw [savePath_eq_of_ext hext nm, if_pos (by simp [h0])]
    unfold pyWithSuffix
    simp only [pyWithSuffixL]
    rw [h0']
    simp only [List.isEmpty_nil, if_true]
    exact mk_append nm ext
  refine ⟨hA name, ?_, ?_, ?_⟩
  · intro hdiff hname
    by_cases h0 : pySuffix name = ""
    · rw [hA name h0]
      exact hSuf name hname
    · rw [savePath_eq_of_ext hext name, if_neg (by simpa using h0),
        if_pos (by simpa using hdiff)]
      rcases pySuffixL_cases name.toList with hc | ⟨i, hi0, hilen, heqd⟩
      · exact absurd ((mk_eq_empty_iff _).mpr hc) h0
      · unfold pyWithSuffix
        simp only [pyWithSuffixL]
        rw [heqd]
        have hdl : (name.toList.drop i).length = name.toList.length - i :=
          List.length_drop _ _
        have hnemp : (name.toList.drop i).isEmpty = false := by
          rw [← Bool.not_eq_true, List.isEmpty_iff]
          intro hd
          have := congrArg List.length hd
          rw [hdl] at this
          simp only [List.length_nil] at this
          omega
        rw [hnemp]
        simp only [Bool.false_eq_true, if_false]
        rw [hdl]
        have htake : name.toList.length - (name.toList.length - i) = i := by omega
        rw [htake]
        have htkne : name.toList.take i ≠ [] := by
          intro hc
          rcases List.take_eq_nil_iff.mp hc with hc' | hc'
          · omega
          · rw [hc'] at hilen
            simp at hilen
        show String.mk (pySuffixL (name.toList.take i ++ ext.toList)) = ext
        rw [hkeyL (name.toList.take i) htkne]
        exact String.ext rfl
  · intro h0 heqlow
    rw [savePath_eq_of_ext hext name, if_neg (by simpa using h0),
      if_neg (by simpa using heqlow)]
  · have h1 := hA "untitled" rfl
    refine ⟨h1, ?_⟩
    rw [h1]
    exact hSuf "untitled" (by decide)

/-- Concrete instantiation of the C7 theorem: a Rust tab saving to
`main.txt` gets suffix `.rs`, and the untitled flow appends `.rs`. -/
theorem save_enforces_extension_witness :
    langExt "rust" = some ".rs" ∧
      strLower (pySuffix "main.txt") ≠ strLower ".rs" ∧
      pySuffix (savePath "rust" "main.txt") = ".rs" ∧
      savePath "rust" "untitled" = "untitled" ++ ".rs" := by
  have h := save_enforces_extension "rust" ".rs" "main.txt" (by decide)
  exact ⟨by decide, by decide, h.2.1 (by decide) (by decide), h.2.2.2.1⟩

-- ---------------------------------------------------------------------------
-- Claim C4: the line-comment toggle on the Python-like language.
-- ---------------------------------------------------------------------------

theorem toggleComment_python_eq (lines : List String) :
    toggleComment "python" lines =
      if ((lines.map String.toList).filter (fun l => !isBlankL l)).all
          (fun l => (['#'] : List Char).isPrefixOf (lstripL l)) then
        ((lines.map String.toList).map (fun l =>
          match findFrom l ['#'] 0 with
          | some j => l.take j ++ l.drop (j + 1)
          | none => l)).map (fun cs => String.mk cs)
      else lines.map (fun l => ("# " : String) ++ l) := rfl

theorem data_hash_space (l : String) :
    ("# " ++ l).toList = '#' :: ' ' :: l.toList :=
  String.data_append "# " l

theorem findFromAux_here {cs pat : List Char} {i : Nat} (fuel : Nat)
    (hi : i ≤ cs.length) (hp : pat.isPrefixOf (cs.drop i) = true) :
    findFromAux cs pat (fuel + 1) i = some i := by
  rw [findFromAux, if_pos hi, if_pos hp]

theorem findFrom_hash_head (cs : List Char) : findFrom ('#' :: cs) ['#'] 0 = some 0 := by
  unfold findFrom
  rw [show ('#' :: cs).length + 1 - 0 = cs.length + 1 + 1 by simp]
  exact findFromAux_here _ (by simp) (by simp [List.isPrefixOf])

theorem mk_space_cons (l : String) : String.mk (' ' :: l.toList) = " " ++ l :=
  String.ext rfl

/-- Claim C4 (corrected).  Amended: for three non-blank lines none of
whose left-stripped text starts with `#`, the first toggle prepends
`# ` to every line; the second toggle deletes only the `#` character
(the marker is `prefix.strip()`, i.e. `"#"`, not the full `"# "`), so
it yields each original line prefixed with one space — not the original
lines exactly. -/
theorem toggleComment_python_roundtrip (l1 l2 l3 : String)
    (hb1 : isBlankL l1.toList = false) (hb2 : isBlankL l2.toList = false)
    (hb3 : isBlankL l3.toList = false)
    (hp1 : (['#'] : List Char).isPrefixOf (lstripL l1.toList) = false) :
    toggleComment "python" [l1, l2, l3] = ["# " ++ l1, "# " ++ l2, "# " ++ l3] ∧
      toggleComment "python" (toggleComment "python" [l1, l2, l3]) =
        [" " ++ l1, " " ++ l2, " " ++ l3] := by
  have h1 : toggleComment "python" [l1, l2, l3] =
      ["# " ++ l1, "# " ++ l2, "# " ++ l3] := by
    rw [toggleComment_python_eq]
    rw [if_neg ?_]
    · simp
    · simp only [List.map_cons, List.map_nil, List.filter_cons, hb1, hb2, hb3,
        Bool.not_false, if_true, List.filter_nil, List.all_cons, hp1,
        Bool.false_and]
      simp
  refine ⟨h1, ?_⟩
  rw [h1, toggleComment_python_eq]
  rw [if_pos ?_]
  · simp only [List.map_cons, List.map_nil, data_hash_space, findFrom_hash_head]
    simp only [List.take_zero, List.drop_succ_cons, List.drop_zero,
      List.nil_append, mk_space_cons]
  · have hws : ('#' : Char).isWhitespace = false := rfl
    have hbl : ∀ cs : List Char, isBlankL ('#' :: cs) = false := by
      intro cs
      simp [isBlankL, hws]
    have hls : ∀ cs : List Char,
        (['#'] : List Char).isPrefixOf (lstripL ('#' :: cs)) = true := by
      intro cs
      rw [lstripL, List.dropWhile_cons, if_neg (by simp [hws])]
      simp [List.isPrefixOf]
    simp only [List.map_cons, List.map_nil, data_hash_space, List.filter_cons,
      List.all_cons, List.all_nil, hbl, hls]
    simp
    exact ⟨List.isPrefixOf_iff_prefix.mp (hls _), List.isPrefixOf_iff_prefix.mp (hls _),
      List.isPrefixOf_iff_prefix.mp (hls _)⟩

/-- Concrete instantiation of the C4 theorem on the lines
`x = 1`, `y = 2`, `z = 3`. -/
theorem toggleComment_python_roundtrip_witness :
    toggleComment "python" ["x = 1", "y = 2", "z = 3"] =
        ["# x = 1", "# y = 2", "# z = 3"] ∧
      toggleComment "python" (toggleComment "python" ["x = 1", "y = 2", "z = 3"]) =
        [" x = 1", " y = 2", " z = 3"] :=
  toggleComment_python_roundtrip "x = 1" "y = 2" "z = 3"
    (by decide) (by decide) (by decide) (by decide)

/-- Claim C4 counterexample: toggling the three lines `a`, `b`, `c`
twice yields ` a`, ` b`, ` c` — each line keeps a leading space, so the
toggle is not an involution on such ranges. -/
theorem toggleComment_not_involutive :
    toggleComment "python" ["a", "b", "c"] = ["# a", "# b", "# c"] ∧
      toggleComment "python" (toggleComment "python" ["a", "b", "c"]) =
        [" a", " b", " c"] ∧
      toggleComment "python" (toggleComment "python" ["a", "b", "c"]) ≠
        ["a", "b", "c"] :=
  ⟨by decide, by decide, by decide⟩

-- ---------------------------------------------------------------------------
-- Claim C5: auto-indent on Return.
-- ---------------------------------------------------------------------------

/-- The line whose indent `on_return_key` actually copies: the line
above the cursor's line (`line - 1` in the source), empty when the
cursor is on line 1. -/
def aboveLine (b : Buffer) : String :=
  if b.curLine > 1 then b.lines.getD (b.curLine - 2) "" else ""

/-- The extra indent unit added when the reference line, right-stripped,
ends with `:` (Python only) or `{`. -/
def extraIndent (language : String) (prev : String) : String :=
  if (language == "python" && endsWithChar (rstrip prev) ':')
      || endsWithChar (rstrip prev) '\x7b' then "    " else ""

/-- Claim C5 (corrected).  Amended: with the cursor at the end of its
line and that line's first non-blank character not `}` or `)`, Return
inserts one new line whose text — hence its leading whitespace — is the
leading whitespace of the line *above the cursor's line* (empty when
the cursor is on line 1), not of the line being ended, plus four spaces
exactly when that above line, right-stripped, ends with `:` (Python
only) or `{`; the cursor lands at the end of the new line. -/
theorem onReturnKey_indent_from_line_above (language : String) (b : Buffer)
    (h1 : 1 ≤ b.curLine) (h2 : b.curLine ≤ b.lines.length)
    (h3 : b.curCol = (b.lines.getD (b.curLine - 1) "").length)
    (h4 : firstNonWS (b.lines.getD (b.curLine - 1) "") ≠ some '\x7d')
    (h5 : firstNonWS (b.lines.getD (b.curLine - 1) "") ≠ some ')') :
    (onReturnKey language b).lines.getD b.curLine "" =
        leadingWS (aboveLine b) ++ extraIndent language (aboveLine b) ∧
      (onReturnKey language b).curLine = b.curLine + 1 ∧
      (onReturnKey language b).curCol =
        (leadingWS (aboveLine b) ++ extraIndent language (aboveLine b)).length := by
  have hc : (firstNonWS (b.lines.getD (b.curLine - 1) "") == some '\x7d'
      || firstNonWS (b.lines.getD (b.curLine - 1) "") == some ')') = false := by
    simp only [Bool.or_eq_false_iff, beq_eq_false_iff_ne, ne_eq]
    exact ⟨h4, h5⟩
  have hbefore : String.mk ((b.lines.getD (b.curLine - 1) "").toList.take b.curCol) =
      b.lines.getD (b.curLine - 1) "" := by
    rw [h3]
    rw [show (b.lines.getD (b.curLine - 1) "").length =
      (b.lines.getD (b.curLine - 1) "").toList.length from rfl]
    rw [List.take_length]
    rfl
  have hafter : String.mk ((b.lines.getD (b.curLine - 1) "").toList.drop b.curCol) =
      "" := by
    rw [h3]
    rw [show (b.lines.getD (b.curLine - 1) "").length =
      (b.lines.getD (b.curLine - 1) "").toList.length from rfl]
    rw [List.drop_length]
  simp only [onReturnKey, hc, Bool.false_eq_true, if_false, hbefore, hafter,
    aboveLine, extraIndent]
  refine ⟨?_, trivial, trivial⟩
  have hlt : (b.lines.take (b.curLine - 1)).length = b.curLine - 1 := by
    rw [List.length_take]
    omega
  rw [List.append_assoc,
    List.getD_append_right _ _ _ _ (by rw [hlt]; omega), hlt,
    show b.curLine - (b.curLine - 1) = 1 by omega]
  rw [List.getD_append _ _ _ _ (by simp)]
  simp [List.getD, String.append_empty]

/-- Concrete instantiation of the C5 theorem: pressing Return at the
end of line 2 (`x`) below `def f():` — the inserted line copies the
indent rule applied to `def f():`, giving four spaces. -/
theorem onReturnKey_indent_witness :
    (onReturnKey "python" ⟨["def f():", "x"], 2, 1⟩).lines.getD 2 "" =
        leadingWS (aboveLine ⟨["def f():", "x"], 2, 1⟩) ++
          extraIndent "python" (aboveLine ⟨["def f():", "x"], 2, 1⟩) ∧
      (onReturnKey "python" ⟨["def f():", "x"], 2, 1⟩).curLine = 2 + 1 ∧
      (onReturnKey "python" ⟨["def f():", "x"], 2, 1⟩).curCol =
        (leadingWS (aboveLine ⟨["def f():", "x"], 2, 1⟩) ++
          extraIndent "python" (aboveLine ⟨["def f():", "x"], 2, 1⟩)).length :=
  onReturnKey_indent_from_line_above "python" ⟨["def f():", "x"], 2, 1⟩
    (by decide) (by decide) (by decide) (by decide) (by decide)

/-- Claim C5 counterexample: buffer holding the single line `if x:`
with the cursor at its end.  The line preceding the new line is
`if x:`, which right-stripped ends with `:`, so the claim requires the
new line to carry four spaces of indent; the code reads the
(non-existent) line above the cursor's line and inserts an empty
line. -/
theorem onReturnKey_claim_false :
    onReturnKey "python" ⟨["if x:"], 1, 5⟩ = ⟨["if x:", ""], 2, 0⟩ ∧
      endsWithChar (rstrip "if x:") ':' = true ∧
      leadingWS ((onReturnKey "python" ⟨["if x:"], 1, 5⟩).lines.getD 1 "") ≠
        leadingWS "if x:" ++ "    " :=
  ⟨by decide, by decide, by decide⟩

-- ---------------------------------------------------------------------------
-- Claim C10: New-action language identifiers outside `LANG_EXT`.
-- ---------------------------------------------------------------------------

theorem savePath_eq_of_no_ext {language : String}
    (h : langExt language = none) (name : String) :
    savePath language name = name := by
  unfold savePath
  rw [h]

/-- Claim C10 (confirmed).  The UI labels `C++` and `C#` are stored
lowercased (`c++`, `c#`) as tab language identifiers by the New action;
neither has an entry in `LANG_EXT`, so saving such a tab performs no
extension enforcement: the user-supplied path is used unchanged,
whatever its suffix (or lack of one). -/
theorem new_tab_cpp_csharp_no_extension :
    "C++" ∈ uiLanguageLabels ∧ "C#" ∈ uiLanguageLabels ∧
      newTabLanguage "C++" = "c++" ∧ newTabLanguage "C#" = "c#" ∧
      langExt "c++" = none ∧ langExt "c#" = none ∧
      (∀ name : String, savePath "c++" name = name) ∧
      (∀ name : String, savePath "c#" name = name) := by
  refine ⟨by decide, by decide, by decide, by decide, by decide, by decide, ?_, ?_⟩
  · exact savePath_eq_of_no_ext (by decide)
  · exact savePath_eq_of_no_ext (by decide)

-- ---------------------------------------------------------------------------
-- Claims C1, C2, C9: the run dispatcher.
-- ---------------------------------------------------------------------------

/-- The compile step of each compile-then-execute branch. -/
def compileCmd (lang : String) (fp : SrcPath) : List String :=
  if lang == "c" then ["gcc", fp.str, "-o", (fp.withSuffix ".out").str]
  else if lang == "cpp" || lang == "c++" then
    ["g++", fp.str, "-o", (fp.withSuffix ".out").str]
  else if lang == "rust" then
    ["rustc", fp.str, "-o", ((fp.withSuffix "").withSuffix ".out").str]
  else if lang == "java" then ["javac", fp.str]
  else ["kotlinc", fp.str, "-include-runtime", "-d", "out.jar"]

/-- The execution step of each compile-then-execute branch. -/
def execStepCmd (lang : String) (fp : SrcPath) : List String :=
  if lang == "c" || lang == "cpp" || lang == "c++" then [(fp.withSuffix ".out").str]
  else if lang == "rust" then [((fp.withSuffix "").withSuffix ".out").str]
  else if lang == "java" then ["java", String.mk (pyStemL fp.base.toList)]
  else ["java", "-jar", "out.jar"]

/-- The PATH probes guarding each compile-then-execute branch. -/
def toolsPresent (lang : String) (wh : String → Bool) : Bool :=
  if lang == "c" then wh "gcc"
  else if lang == "cpp" || lang == "c++" then wh "g++"
  else if lang == "rust" then wh "rustc"
  else if lang == "java" then wh "javac" && wh "java"
  else wh "kotlinc"

/-- A process oracle for witnesses: every step succeeds silently. -/
def execOk : List String → Int × String × String := fun _ => (0, "", "")

/-- A process oracle whose C compile step fails with stderr `boom`. -/
def execFailC : List String → Int × String × String := fun cmd =>
  if cmd == ["gcc", "/tmp/main.c", "-o", "/tmp/main.out"] then (1, "", "boom")
  else (0, "", "")

/-- A process oracle whose C# scaffold step fails; `dotnet run`
succeeds printing `ran`. -/
def execCsFail : List String → Int × String × String := fun cmd =>
  if cmd == ["dotnet", "new", "console", "-o", "."] then
    (1, "scaffold out", "scaffold err")
  else (0, "ran", "")

/-- Claim C1 (corrected).  Amended: for C, C++, Rust, Java and Kotlin,
with the branch's probed tools present, a non-zero compile exit code
makes the run's trace exactly the compile spawn followed by that step's
non-empty captured output and error — no execution spawn — and the
execution step is spawned (right after the compile spawn) exactly when
the compile step exits zero.  C# is excluded from the amended claim:
its branch invokes `dotnet run` unconditionally after an optional
project-scaffold step whose exit code and output are ignored (see the
counterexample). -/
theorem runner_compile_gate (lang : String) (fp : SrcPath) (wh : String → Bool)
    (pe : Bool) (exec : List String → Int × String × String)
    (hl : lang ∈ ["c", "cpp", "c++", "rust", "java", "kotlin"])
    (htools : toolsPresent lang wh = true) :
    ((exec (compileCmd lang fp)).1 ≠ 0 →
      runner lang fp wh pe exec =
        Event.spawn (compileCmd lang fp) fp.dir ::
          outErrEvents (exec (compileCmd lang fp)).2.1
            (exec (compileCmd lang fp)).2.2) ∧
    ((exec (compileCmd lang fp)).1 = 0 →
      runner lang fp wh pe exec =
        Event.spawn (compileCmd lang fp) fp.dir ::
          Event.spawn (execStepCmd lang fp) fp.dir ::
            outErrEvents (exec (execStepCmd lang fp)).2.1
              (exec (execStepCmd lang fp)).2.2) := by
  fin_cases hl <;>
    simp only [toolsPresent] at htools <;>
    simp_all [runner, compileCmd, execStepCmd]

/-- Concrete instantiation of the C1 theorem: a C file whose
compilation exits 1 with stderr `boom` — the trace is the compile spawn
plus that stderr line, with no execution spawn. -/
theorem runner_compile_gate_witness :
    toolsPresent "c" (fun s => s == "gcc") = true ∧
      (execFailC (compileCmd "c" ⟨"/tmp", "main.c"⟩)).1 ≠ 0 ∧
      runner "c" ⟨"/tmp", "main.c"⟩ (fun s => s == "gcc") true execFailC =
        Event.spawn (compileCmd "c" ⟨"/tmp", "main.c"⟩) "/tmp" ::
          outErrEvents (execFailC (compileCmd "c" ⟨"/tmp", "main.c"⟩)).2.1
            (execFailC (compileCmd "c" ⟨"/tmp", "main.c"⟩)).2.2 :=
  ⟨by decide, by decide,
    (runner_compile_gate "c" ⟨"/tmp", "main.c"⟩ (fun s => s == "gcc") true execFailC
      (by decide) (by decide)).1 (by decide)⟩

/-- Claim C1 counterexample: for C#, with `dotnet` present and no
project file, the scaffold step (`dotnet new console`) exits 1, yet
`dotnet run` is spawned anyway and the failed step's output is never
appended — the compile-exit gate of the claim does not exist in the C#
branch. -/
theorem csharp_run_unconditional :
    (execCsFail ["dotnet", "new", "console", "-o", "."]).1 ≠ 0 ∧
      runner "csharp" ⟨"/tmp", "P.cs"⟩ (fun s => s == "dotnet") false execCsFail =
        [Event.spawn ["dotnet", "new", "console", "-o", "."] "/tmp",
         Event.spawn ["dotnet", "run"] "/tmp", Event.append "ran"] ∧
      Event.spawn ["dotnet", "run"] "/tmp" ∈
        runner "csharp" ⟨"/tmp", "P.cs"⟩ (fun s => s == "dotnet") false execCsFail ∧
      Event.append "scaffold out" ∉
        runner "csharp" ⟨"/tmp", "P.cs"⟩ (fun s => s == "dotnet") false execCsFail ∧
      Event.append "scaffold err" ∉
        runner "csharp" ⟨"/tmp", "P.cs"⟩ (fun s => s == "dotnet") false execCsFail :=
  ⟨by decide, by decide, by decide, by decide, by decide⟩

/-- The PATH probes performed before the first invocation of each
guarded run branch. -/
def requiredTools (lang : String) : List String :=
  if lang == "c" then ["gcc"]
  else if lang == "cpp" || lang == "c++" then ["g++"]
  else if lang == "rust" then ["rustc"]
  else if lang == "go" then ["go"]
  else if lang == "java" then ["javac", "java"]
  else if lang == "javascript" || lang == "js" then ["node"]
  else if lang == "typescript" || lang == "ts" then ["tsc"]
  else if lang == "lua" then ["lua"]
  else if lang == "csharp" then ["dotnet"]
  else if lang == "ruby" then ["ruby"]
  else if lang == "kotlin" then ["kotlinc"]
  else ["nix"]

/-- The run branches that guard their external tool with a PATH probe. -/
def guardedLangs : List String :=
  ["c", "cpp", "c++", "rust", "go", "java", "javascript", "js",
   "typescript", "ts", "lua", "csharp", "ruby", "kotlin", "nix"]

/-- When all of a guarded branch's probed tools are absent from the
PATH, the run spawns zero processes and appends a console
diagnostic. -/
theorem runner_missing_tool_no_spawn (lang : String) (fp : SrcPath)
    (wh : String → Bool) (pe : Bool)
    (exec : List String → Int × String × String)
    (hl : lang ∈ guardedLangs)
    (habs : ∀ t ∈ requiredTools lang, wh t = false) :
    (runner lang fp wh pe exec).filter Event.isSpawn = [] ∧
      ∃ msg, Event.append msg ∈ runner lang fp wh pe exec := by
  fin_cases hl
  · have h := habs "gcc" (by decide)
    rw [show runner "c" fp wh pe exec =
      [Event.append ("Compiler \x27gcc\x27 not found in PATH.\n")] by simp [runner, h]]
    exact ⟨rfl, _, List.mem_singleton.mpr rfl⟩
  · have h := habs "g++" (by decide)
    rw [show runner "cpp" fp wh pe exec =
      [Event.append ("Compiler \x27g++\x27 not found in PATH.\n")] by simp [runner, h]]
    exact ⟨rfl, _, List.mem_singleton.mpr rfl⟩
  · have h := habs "g++" (by decide)
    rw [show runner "c++" fp wh pe exec =
      [Event.append ("Compiler \x27g++\x27 not found in PATH.\n")] by simp [runner, h]]
    exact ⟨rfl, _, List.mem_singleton.mpr rfl⟩
  · have h := habs "rustc" (by decide)
    rw [show runner "rust" fp wh pe exec =
      [Event.append "rustc not found in PATH.\n"] by simp [runner, h]]
    exact ⟨rfl, _, List.mem_singleton.mpr rfl⟩
  · have h := habs "go" (by decide)
    rw [show runner "go" fp wh pe exec =
      [Event.append "go not found in PATH.\n"] by simp [runner, h]]
    exact ⟨rfl, _, List.mem_singleton.mpr rfl⟩
  · have h := habs "javac" (by decide)
    rw [show runner "java" fp wh pe exec =
      [Event.append "javac/java not found in PATH.\n"] by simp [runner, h]]
    exact ⟨rfl, _, List.mem_singleton.mpr rfl⟩
  · have h := habs "node" (by decide)
    rw [show runner "javascript" fp wh pe exec =
      [Event.browse fp.uri,
       Event.append "Node not found — opened file in browser instead.\n"]
      by simp [runner, h]]
    exact ⟨rfl, _, List.mem_cons_of_mem _ (List.mem_singleton.mpr rfl)⟩
  · have h := habs "node" (by decide)
    rw [show runner "js" fp wh pe exec =
      [Event.browse fp.uri,
       Event.append "Node not found — opened file in browser instead.\n"]
      by simp [runner, h]]
    exact ⟨rfl, _, List.mem_cons_of_mem _ (List.mem_singleton.mpr rfl)⟩
  · have h := habs "tsc" (by decide)
    rw [show runner "typescript" fp wh pe exec =
      [Event.append "tsc (TypeScript compiler) not found in PATH.\n"]
      by simp [runner, h]]
    exact ⟨rfl, _, List.mem_singleton.mpr rfl⟩
  · have h := habs "tsc" (by decide)
    rw [show runner "ts" fp wh pe exec =
      [Event.append "tsc (TypeScript compiler) not found in PATH.\n"]
      by simp [runner, h]]
    exact ⟨rfl, _, List.mem_singleton.mpr rfl⟩
  · have h := habs "lua" (by decide)
    rw [show runner "lua" fp wh pe exec =
      [Event.append "lua not found in PATH.\n"] by simp [runner, h]]
    exact ⟨rfl, _, List.mem_singleton.mpr rfl⟩
  · have h := habs "dotnet" (by decide)
    rw [show runner "csharp" fp wh pe exec =
      [Event.append ".NET SDK not found in PATH.\n"] by simp [runner, h]]
    exact ⟨rfl, _, List.mem_singleton.mpr rfl⟩
  · have h := habs "ruby" (by decide)
    rw [show runner "ruby" fp wh pe exec =
      [Event.append "Ruby not found in PATH.\n"] by simp [runner, h]]
    exact ⟨rfl, _, List.mem_singleton.mpr rfl⟩
  · have h := habs "kotlinc" (by decide)
    rw [show runner "kotlin" fp wh pe exec =
      [Event.append "Kotlin compiler not found in PATH.\n"] by simp [runner, h]]
    exact ⟨rfl, _, List.mem_singleton.mpr rfl⟩
  · have h := habs "nix" (by decide)
    rw [show runner "nix" fp wh pe exec =
      [Event.append "Nix not found in PATH.\n"] by simp [runner, h]]
    exact ⟨rfl, _, List.mem_singleton.mpr rfl⟩

/-- The spawns of the dispatcher that are not guarded by a PATH probe
of their own executable: the Python branch's interpreter invocation,
the Kotlin branch's `java` execution step (only `kotlinc` is probed),
the Nix branch's `nix-shell` invocation for non-flake files (only
`nix` is probed), and the execution of a just-built artifact, which is
invoked by explicit path rather than resolved through the PATH. -/
def unprobedSpawn (lang : String) (fp : SrcPath) (cmd : List String) : Prop :=
  cmd.head? = some sysExecutable ∨
  (lang = "kotlin" ∧ cmd.head? = some "java") ∨
  (lang = "nix" ∧ cmd.head? = some "nix-shell") ∨
  cmd = [(fp.withSuffix ".out").str] ∨
  cmd = [((fp.withSuffix "").withSuffix ".out").str]

theorem spawn_not_mem_outErrEvents (cmd : List String) (cwd : String)
    (o e : String) : Event.spawn cmd cwd ∉ outErrEvents o e := by
  unfold outErrEvents
  intro h
  rcases List.mem_append.mp h with h' | h' <;> split at h' <;> simp at h'

/-- Every spawn in any run trace is either of an executable the branch
probed and found present, or one of the enumerated unprobed spawns. -/
theorem runner_spawns_probed (lang : String) (fp : SrcPath) (wh : String → Bool)
    (pe : Bool) (exec : List String → Int × String × String)
    (cmd : List String) (cwd : String)
    (hmem : Event.spawn cmd cwd ∈ runner lang fp wh pe exec) :
    (∃ h, cmd.head? = some h ∧ wh h = true) ∨ unprobedSpawn lang fp cmd := by
  rw [runner] at hmem
  dsimp only at hmem
  by_cases hL1 : (lang == "python") = true
  · rw [if_pos hL1] at hmem
    rcases List.mem_cons.mp hmem with he | he
    · injection he with h1 h2
      subst h1
      right
      unfold unprobedSpawn
      exact Or.inl rfl
    · exact absurd he (spawn_not_mem_outErrEvents _ _ _ _)
  · rw [if_neg hL1] at hmem
    by_cases hL2 : (lang == "c" || lang == "cpp" || lang == "c++") = true
    · rw [if_pos hL2] at hmem
      set cpl : String := if (lang == "c") = true then "gcc" else "g++" with hcpl
      by_cases hA : (!wh cpl) = true
      · rw [if_pos hA] at hmem
        simp at hmem
      · rw [if_neg hA] at hmem
        have hwh : wh cpl = true := by simpa using hA
        by_cases hB : ((exec [cpl, fp.str, "-o", (fp.withSuffix ".out").str]).1 != 0) = true
        · rw [if_pos hB] at hmem
          rcases List.mem_cons.mp hmem with he | he
          · injection he with h1 h2
            subst h1
            exact Or.inl ⟨cpl, rfl, hwh⟩
          · exact absurd he (spawn_not_mem_outErrEvents _ _ _ _)
        · rw [if_neg hB] at hmem
          rcases List.mem_cons.mp hmem with he | he
          · injection he with h1 h2
            subst h1
            exact Or.inl ⟨cpl, rfl, hwh⟩
          · rcases List.mem_cons.mp he with he' | he'
            · injection he' with h1 h2
              subst h1
              right
              unfold unprobedSpawn
              exact Or.inr (Or.inr (Or.inr (Or.inl rfl)))
            · exact absurd he' (spawn_not_mem_outErrEvents _ _ _ _)
    · rw [if_neg hL2] at hmem
      by_cases hL3 : (lang == "rust") = true
      · rw [if_pos hL3] at hmem
        by_cases hR : wh "rustc" = true
        · rw [if_pos hR] at hmem
          by_cases hB : ((exec ["rustc", fp.str, "-o",
              ((fp.withSuffix "").withSuffix ".out").str]).1 != 0) = true
          · rw [if_pos hB] at hmem
            rcases List.mem_cons.mp hmem with he | he
            · injection he with h1 h2
              subst h1
              exact Or.inl ⟨"rustc", rfl, hR⟩
            · exact absurd he (spawn_not_mem_outErrEvents _ _ _ _)
          · rw [if_neg hB] at hmem
            rcases List.mem_cons.mp hmem with he | he
            · injection he with h1 h2
              subst h1
              exact Or.inl ⟨"rustc", rfl, hR⟩
            · rcases List.mem_cons.mp he with he' | he'
              · injection he' with h1 h2
                subst h1
                right
                unfold unprobedSpawn
                exact Or.inr (Or.inr (Or.inr (Or.inr rfl)))
              · exact absurd he' (spawn_not_mem_outErrEvents _ _ _ _)
        · rw [if_neg hR] at hmem
          simp at hmem
      · rw [if_neg hL3] at hmem
        by_cases hL4 : (lang == "go") = true
        · rw [if_pos hL4] at hmem
          by_cases hG : wh "go" = true
          · rw [if_pos hG] at hmem
            rcases List.mem_cons.mp hmem with he | he
            · injection he with h1 h2
              subst h1
              exact Or.inl ⟨"go", rfl, hG⟩
            · exact absurd he (spawn_not_mem_outErrEvents _ _ _ _)
          · rw [if_neg hG] at hmem
            simp at hmem
        · rw [if_neg hL4] at hmem
          by_cases hL5 : (lang == "java") = true
          · rw [if_pos hL5] at hmem
            by_cases hJ : (wh "javac" && wh "java") = true
            · rw [if_pos hJ] at hmem
              obtain ⟨hj1, hj2⟩ : wh "javac" = true ∧ wh "java" = true := by simpa using hJ
              by_cases hB : ((exec ["javac", fp.str]).1 != 0) = true
              · rw [if_pos hB] at hmem
                rcases List.mem_cons.mp hmem with he | he
                · injection he with h1 h2
                  subst h1
                  exact Or.inl ⟨"javac", rfl, hj1⟩
                · exact absurd he (spawn_not_mem_outErrEvents _ _ _ _)
              · rw [if_neg hB] at hmem
                rcases List.mem_cons.mp hmem with he | he
                · injection he with h1 h2
                  subst h1
                  exact Or.inl ⟨"javac", rfl, hj1⟩
                · rcases List.mem_cons.mp he with he' | he'
                  · injection he' with h1 h2
                    subst h1
                    exact Or.inl ⟨"java", rfl, hj2⟩
                  · exact absurd he' (spawn_not_mem_outErrEvents _ _ _ _)
            · rw [if_neg hJ] at hmem
              simp at hmem
          · rw [if_neg hL5] at hmem
            by_cases hL6 : (lang == "javascript" || lang == "js") = true
            · rw [if_pos hL6] at hmem
              by_cases hN : wh "node" = true
              · rw [if_pos hN] at hmem
                rcases List.mem_cons.mp hmem with he | he
                · injection he with h1 h2
                  subst h1
                  exact Or.inl ⟨"node", rfl, hN⟩
                · exact absurd he (spawn_not_mem_outErrEvents _ _ _ _)
              · rw [if_neg hN] at hmem
                simp at hmem
            · rw [if_neg hL6] at hmem
              by_cases hL7 : (lang == "typescript" || lang == "ts") = true
              · rw [if_pos hL7] at hmem
                by_cases hT : wh "tsc" = true
                · rw [if_pos hT] at hmem
                  by_cases hB : ((exec ["tsc", fp.str, "--outFile",
                      (fp.withSuffix ".js").str]).1 != 0) = true
                  · rw [if_pos hB] at hmem
                    rcases List.mem_cons.mp hmem with he | he
                    · injection he with h1 h2
                      subst h1
                      exact Or.inl ⟨"tsc", rfl, hT⟩
                    · exact absurd he (spawn_not_mem_outErrEvents _ _ _ _)
                  · rw [if_neg hB] at hmem
                    by_cases hN : wh "node" = true
                    · rw [if_pos hN] at hmem
                      rcases List.mem_cons.mp hmem with he | he
                      · injection he with h1 h2
                        subst h1
                        exact Or.inl ⟨"tsc", rfl, hT⟩
                      · rcases List.mem_cons.mp he with he' | he'
                        · injection he' with h1 h2
                          subst h1
                          exact Or.inl ⟨"node", rfl, hN⟩
                        · exact absurd he' (spawn_not_mem_outErrEvents _ _ _ _)
                    · rw [if_neg hN] at hmem
                      rcases List.mem_cons.mp hmem with he | he
                      · injection he with h1 h2
                        subst h1
                        exact Or.inl ⟨"tsc", rfl, hT⟩
                      · simp at he
                · rw [if_neg hT] at hmem
                  simp at hmem
              · rw [if_neg hL7] at hmem
                by_cases hL8 : (lang == "lua") = true
                · rw [if_pos hL8] at hmem
                  by_cases hLu : wh "lua" = true
                  · rw [if_pos hLu] at hmem
                    rcases List.mem_cons.mp hmem with he | he
                    · injection he with h1 h2
                      subst h1
                      exact Or.inl ⟨"lua", rfl, hLu⟩
                    · exact absurd he (spawn_not_mem_outErrEvents _ _ _ _)
                  · rw [if_neg hLu] at hmem
                    simp at hmem
                · rw [if_neg hL8] at hmem
                  by_cases hL9 : (lang == "html" || lang == "htm" || lang == "css") = true
                  · rw [if_pos hL9] at hmem
                    simp at hmem
                  · rw [if_neg hL9] at hmem
                    by_cases hL10 : (lang == "csharp") = true
                    · rw [if_pos hL10] at hmem
                      by_cases hD : wh "dotnet" = true
                      · rw [if_pos hD] at hmem
                        by_cases hS : (!pe) = true
                        · rw [if_pos hS] at hmem
                          rcases List.mem_append.mp hmem with he | he
                          · have he' := List.mem_singleton.mp he
                            injection he' with h1 h2
                            subst h1
                            exact Or.inl ⟨"dotnet", rfl, hD⟩
                          · rcases List.mem_cons.mp he with he' | he'
                            · injection he' with h1 h2
                              subst h1
                              exact Or.inl ⟨"dotnet", rfl, hD⟩
                            · exact absurd he' (spawn_not_mem_outErrEvents _ _ _ _)
                        · rw [if_neg hS] at hmem
                          rcases List.mem_append.mp hmem with he | he
                          · simp at he
                          · rcases List.mem_cons.mp he with he' | he'
                            · injection he' with h1 h2
                              subst h1
                              exact Or.inl ⟨"dotnet", rfl, hD⟩
                            · exact absurd he' (spawn_not_mem_outErrEvents _ _ _ _)
                      · rw [if_neg hD] at hmem
                        simp at hmem
                    · rw [if_neg hL10] at hmem
                      by_cases hL11 : (lang == "ruby") = true
                      · rw [if_pos hL11] at hmem
                        by_cases hRb : wh "ruby" = true
                        · rw [if_pos hRb] at hmem
                          rcases List.mem_cons.mp hmem with he | he
                          · injection he with h1 h2
                            subst h1
                            exact Or.inl ⟨"ruby", rfl, hRb⟩
                          · exact absurd he (spawn_not_mem_outErrEvents _ _ _ _)
                        · rw [if_neg hRb] at hmem
                          simp at hmem
                      · rw [if_neg hL11] at hmem
                        by_cases hL12 : (lang == "kotlin") = true
                        · rw [if_pos hL12] at hmem
                          by_cases hK : wh "kotlinc" = true
                          · rw [if_pos hK] at hmem
                            by_cases hB : ((exec ["kotlinc", fp.str, "-include-runtime",
                                "-d", "out.jar"]).1 != 0) = true
                            · rw [if_pos hB] at hmem
                              rcases List.mem_cons.mp hmem with he | he
                              · injection he with h1 h2
                                subst h1
                                exact Or.inl ⟨"kotlinc", rfl, hK⟩
                              · exact absurd he (spawn_not_mem_outErrEvents _ _ _ _)
                            · rw [if_neg hB] at hmem
                              rcases List.mem_cons.mp hmem with he | he
                              · injection he with h1 h2
                                subst h1
                                exact Or.inl ⟨"kotlinc", rfl, hK⟩
                              · rcases List.mem_cons.mp he with he' | he'
                                · injection he' with h1 h2
                                  subst h1
                                  right
                                  unfold unprobedSpawn
                                  exact Or.inr (Or.inl ⟨by simpa using hL12, rfl⟩)
                                · exact absurd he' (spawn_not_mem_outErrEvents _ _ _ _)
                          · rw [if_neg hK] at hmem
                            simp at hmem
                        · rw [if_neg hL12] at hmem
                          by_cases hL13 : (lang == "nix") = true
                          · rw [if_pos hL13] at hmem
                            by_cases hNx : wh "nix" = true
                            · rw [if_pos hNx] at hmem
                              by_cases hF : (fp.base == "flake.nix") = true
                              · rw [if_pos hF] at hmem
                                rcases List.mem_cons.mp hmem with he | he
                                · injection he with h1 h2
                                  subst h1
                                  exact Or.inl ⟨"nix", rfl, hNx⟩
                                · exact absurd he (spawn_not_mem_outErrEvents _ _ _ _)
                              · rw [if_neg hF] at hmem
                                rcases List.mem_cons.mp hmem with he | he
                                · injection he with h1 h2
                                  subst h1
                                  right
                                  unfold unprobedSpawn
                                  exact Or.inr (Or.inr (Or.inl ⟨by simpa using hL13, rfl⟩))
                                · exact absurd he (spawn_not_mem_outErrEvents _ _ _ _)
                            · rw [if_neg hNx] at hmem
                              simp at hmem
                          · rw [if_neg hL13] at hmem
                            simp at hmem

/-- Claim C2 (corrected).  Amended: every process spawn the dispatcher
performs uses an executable that the branch's PATH probe verified
present before spawning, except for the enumerated unprobed spawns —
the Python branch's interpreter, the Kotlin branch's `java` step, the
Nix branch's `nix-shell` invocation, and executions of just-built
artifacts by explicit path; and for every guarded branch, when its
probed tools are absent the run spawns zero processes and reports the
missing executable as console text rather than a crash.  In the
unprobed cases a missing executable is discovered only by the failed
spawn, whose captured error is likewise console text (see the
counterexample). -/
theorem runner_probe_discipline :
    (∀ (lang : String) (fp : SrcPath) (wh : String → Bool) (pe : Bool)
        (exec : List String → Int × String × String)
        (cmd : List String) (cwd : String),
      Event.spawn cmd cwd ∈ runner lang fp wh pe exec →
        (∃ h, cmd.head? = some h ∧ wh h = true) ∨ unprobedSpawn lang fp cmd) ∧
    (∀ (lang : String) (fp : SrcPath) (wh : String → Bool) (pe : Bool)
        (exec : List String → Int × String × String),
      lang ∈ guardedLangs → (∀ t ∈ requiredTools lang, wh t = false) →
        (runner lang fp wh pe exec).filter Event.isSpawn = [] ∧
          ∃ msg, Event.append msg ∈ runner lang fp wh pe exec) :=
  ⟨runner_spawns_probed, runner_missing_tool_no_spawn⟩

/-- Concrete instantiation of the C2 theorem: the one spawn of a Ruby
run with `ruby` present is of a probed-present executable, and a Go run
with an empty PATH spawns nothing and appends a diagnostic. -/
theorem runner_probe_discipline_witness :
    (Event.spawn ["ruby", "/h/s.rb"] "/h" ∈
        runner "ruby" ⟨"/h", "s.rb"⟩ (fun s => s == "ruby") true execOk) ∧
      ((∃ h, (["ruby", "/h/s.rb"] : List String).head? = some h ∧
          (fun s : String => s == "ruby") h = true) ∨
        unprobedSpawn "ruby" ⟨"/h", "s.rb"⟩ ["ruby", "/h/s.rb"]) ∧
      (∀ t ∈ requiredTools "go", (fun _ : String => false) t = false) ∧
      ((runner "go" ⟨"/w", "m.go"⟩ (fun _ => false) true execOk).filter
          Event.isSpawn = [] ∧
        ∃ msg, Event.append msg ∈
          runner "go" ⟨"/w", "m.go"⟩ (fun _ => false) true execOk) :=
  ⟨by decide,
    runner_probe_discipline.1 "ruby" ⟨"/h", "s.rb"⟩ (fun s => s == "ruby") true
      execOk ["ruby", "/h/s.rb"] "/h" (by decide),
    by decide,
    runner_probe_discipline.2 "go" ⟨"/w", "m.go"⟩ (fun _ => false) true execOk
      (by decide) (by decide)⟩

/-- Claim C2 counterexample: with `kotlinc` on the PATH but `java`
absent, the Kotlin branch spawns `java -jar out.jar` anyway — a process
spawn of an executable the PATH lacks, which a probe-before-spawn
policy would have prevented; the failure would be discovered only by
the spawn itself. -/
theorem kotlin_java_unprobed_spawn :
    (fun s => s == "kotlinc") "java" = false ∧
      Event.spawn ["java", "-jar", "out.jar"] "/tmp" ∈
        runner "kotlin" ⟨"/tmp", "Main.kt"⟩ (fun s => s == "kotlinc") true execOk :=
  ⟨by decide, by decide⟩

/-- Claim C9 (confirmed).  For every saved Ruby file and every PATH
state lacking a `ruby` executable, the run's trace is exactly the one
console append `Ruby not found in PATH.\n` — in particular zero
processes are spawned. -/
theorem ruby_missing_interpreter (fp : SrcPath) (wh : String → Bool)
    (pe : Bool) (exec : List String → Int × String × String)
    (h : wh "ruby" = false) :
    runner "ruby" fp wh pe exec = [Event.append "Ruby not found in PATH.\n"] := by
  simp [runner, h]

/-- Concrete instantiation of the C9 theorem. -/
theorem ruby_missing_interpreter_witness :
    (fun _ : String => false) "ruby" = false ∧
      runner "ruby" ⟨"/home", "script.rb"⟩ (fun _ => false) false execOk =
        [Event.append "Ruby not found in PATH.\n"] :=
  ⟨rfl, ruby_missing_interpreter ⟨"/home", "script.rb"⟩ (fun _ => false) false execOk rfl⟩

end VanillaStudio
